import Mathlib

/-!
# Verification of the batch text-file transformation tools

Shallow embedding of `clean_dataset.cpp`, `count_words.cpp` and `sort_words.cpp`.

Conventions of the embedding.

* A C++ `std::string` is a `List Char`; a file's content is a `List Char` as well.
* The C++ `int` is 32 bits wide: a mathematical `Int` together with an explicit range check
  where the library performs one.
* `double` quantities (sizes in MiB, durations in seconds) are idealised as rationals; the only
  floating-point behaviour that is kept is the outcome of a division by zero.
* Calls into the C++ standard library are modelled by what the library does on the inputs
  (stream extraction, `regex_replace`) or, for `std::sort`, by a parameter: the tools are
  defined over an arbitrary sorting routine, and `gnuSort` renders the routine of GNU libstdc++.
-/

namespace Pa1

/-! ## Character classes -/

/-- The delimiter class `[ \t\n\r]` of the two regular expressions in `cleanseLine`. -/
def isDelimiter (c : Char) : Bool :=
  c = ' ' || c = '\t' || c = '\n' || c = '\r'

/-- The class `[0-9a-zA-Z \t\n\r]`, whose complement the first regular expression deletes. -/
def isKept (c : Char) : Bool :=
  ('0' ≤ c && c ≤ '9') || ('a' ≤ c && c ≤ 'z') || ('A' ≤ c && c ≤ 'Z') || isDelimiter c

/-! ## clean_dataset.cpp : cleanseLine -/

/-- The erase/remove idiom of `cleanseLine`: every carriage return is removed. -/
def removeCarriageReturns (s : List Char) : List Char :=
  s.filter (fun c => c != '\r')

/-- Models `regex_replace(s, regex("[^0-9a-zA-Z \\t\\n\\r]+"), "")`: every maximal run of
characters outside the class is replaced by nothing, the other characters are copied. -/
def deleteDisallowed : List Char → List Char
  | [] => []
  | c :: cs => if isKept c then c :: deleteDisallowed cs else deleteDisallowed cs

/-- Models `regex_replace(s, regex("([ \\t\\n\\r])\\1+"), "$1")` as the left-to-right scan the
library performs. `run = some d` means that a match which captured the delimiter `d` is being
extended by the greedy `\1+`; a match starts at a delimiter that is followed by itself and emits
the captured character once; every character outside a match is copied. -/
def collapseScan : Option Char → List Char → List Char
  | _, [] => []
  | run, c :: cs =>
    if run = some c then collapseScan run cs
    else if isDelimiter c && cs.head? == some c then c :: collapseScan (some c) cs
    else c :: collapseScan none cs

/-- The second `regex_replace` of `cleanseLine`, started outside any match. -/
def collapseDelimiters (s : List Char) : List Char :=
  collapseScan none s

/-- The function `cleanseLine` of `clean_dataset.cpp`: remove carriage returns, delete the
characters outside `[0-9a-zA-Z \t\n\r]`, then collapse runs of one repeated delimiter. -/
def cleanseLine (inputLine : List Char) : List Char :=
  collapseDelimiters (deleteDisallowed (removeCarriageReturns inputLine))

/-- No two neighbours of the list are the same delimiter character. -/
def NoRepeatedDelimiter (s : List Char) : Prop :=
  List.Chain' (fun a b => ¬ (isDelimiter a = true ∧ a = b)) s

/-! ## Stream extraction (`<sstream>`, `<fstream>`) -/

/-- The whitespace of the classic locale, which formatted extraction skips:
space, `\t`, `\n`, `\v`, `\f`, `\r`. -/
def isSpace (c : Char) : Bool :=
  c = ' ' || c = '\t' || c = '\n' || c = '\x0b' || c = '\x0c' || c = '\r'

/-- A decimal digit. -/
def isDigit (c : Char) : Bool :=
  '0' ≤ c && c ≤ '9'

/-- Value of one decimal digit. -/
def digitValue (c : Char) : Nat :=
  c.toNat - '0'.toNat

/-- Value of a run of decimal digits, most significant first. -/
def digitsValue (ds : List Char) : Nat :=
  ds.foldl (fun acc d => 10 * acc + digitValue d) 0

/-- Largest value of the 32-bit `int`. -/
def INT_MAX : Int := 2147483647

/-- Smallest value of the 32-bit `int`. -/
def INT_MIN : Int := -2147483648

/-- A parsed entry: the C++ `pair<string, int>`. -/
abbrev WordCount := List Char × Int

/-- Models `iss >> word` on the unread characters `s`: leading whitespace is skipped, then the
maximal run of non-whitespace characters is extracted. The result is the word and the characters
left unread; `none` is a failed extraction (nothing but whitespace was left). -/
def extractString (s : List Char) : Option (List Char × List Char) :=
  match s.dropWhile isSpace with
  | [] => none
  | c :: cs =>
    some ((c :: cs).takeWhile (fun x => !isSpace x), (c :: cs).dropWhile (fun x => !isSpace x))

/-- Models `num_get` for `int` in the classic locale with the default `dec` base, on the text at
the read position: an optional sign, then the maximal run of decimal digits; the extraction fails
when there is no digit or when the value does not fit the 32-bit `int`. Characters after the
digits stay unread. -/
def numGet : List Char → Option Int
  | [] => none
  | c :: cs =>
    let body := if c = '-' ∨ c = '+' then cs else c :: cs
    let digits := body.takeWhile isDigit
    if digits = [] then none
    else
      let value : Int := if c = '-' then -(digitsValue digits : Int) else (digitsValue digits : Int)
      if INT_MIN ≤ value ∧ value ≤ INT_MAX then some value else none

/-- Models `iss >> count` for an `int`: whitespace is skipped, then `numGet` runs. An exhausted
stream (the previous extraction reached the end of the line) fails as well. -/
def extractInt (s : List Char) : Option Int :=
  numGet (s.dropWhile isSpace)

/-- Scan of the `std::getline` loop: `cur` holds the characters of the line being read, in
reverse. A line ends at `\n`; characters after the last `\n` form a last line when there are
any. -/
def getlinesAux : List Char → List Char → List (List Char)
  | cur, [] => if cur = [] then [] else [cur.reverse]
  | cur, c :: cs => if c = '\n' then cur.reverse :: getlinesAux [] cs else getlinesAux (c :: cur) cs

/-- The lines that `while (getline(file, line))` yields on a file's content. -/
def getlines (content : List Char) : List (List Char) :=
  getlinesAux [] content

/-- Decimal digits of `n`, most significant first, prepended to `acc`; `fuel` bounds the number
of digits. -/
def natToDecimalAux : Nat → Nat → List Char → List Char
  | 0, _, acc => acc
  | fuel + 1, n, acc =>
    let acc1 := Char.ofNat ('0'.toNat + n % 10) :: acc
    if n / 10 = 0 then acc1 else natToDecimalAux fuel (n / 10) acc1

/-- Decimal representation of a natural number, without leading zeros. -/
def natToDecimal (n : Nat) : List Char :=
  natToDecimalAux (n + 1) n []

/-- Models `outFile << count` for an `int` with the default flags: a minus sign for a negative
value, then the decimal digits. -/
def intToDecimal (n : Int) : List Char :=
  if n < 0 then '-' :: natToDecimal n.natAbs else natToDecimal n.natAbs

/-! ## The contract of `std::sort` -/

/-- The requirement `std::sort` puts on its comparator: a strict weak ordering. -/
def IsStrictWeakOrdering {α : Type} (comp : α → α → Bool) : Prop :=
  (∀ a, comp a a = false) ∧
  (∀ a b c, comp a b = true → comp b c = true → comp a c = true) ∧
  (∀ a b c, comp a b = false → comp b c = false → comp a c = false)

/-- A range sorted with respect to `comp` in the sense of the C++ standard: no element compares
before an element that precedes it. -/
def SortedBy {α : Type} (comp : α → α → Bool) (l : List α) : Prop :=
  l.Pairwise (fun a b => comp b a = false)

/-- What the C++ standard promises of `std::sort(first, last, comp)`: the range afterwards is a
rearrangement of the range before, sorted with respect to `comp`. Nothing is promised about the
relative order of equivalent elements. -/
def StdSortContract {α : Type} (stdSort : (α → α → Bool) → List α → List α) : Prop :=
  ∀ comp l, IsStrictWeakOrdering comp →
    (stdSort comp l).Perm l ∧ SortedBy comp (stdSort comp l)

/-- A sorting routine for word counts, the `std::sort` the tools are linked against. -/
abbrev SortRoutine := (WordCount → WordCount → Bool) → List WordCount → List WordCount

/-! ## GNU libstdc++ `std::sort` (bits/stl_algo.h, bits/stl_heap.h)

The range is a list and an iterator is a position in it. The loops of the library that carry no
bound check (`__unguarded_partition`, `__unguarded_linear_insert`) stop here at the ends of the
list; with a strict weak ordering the library never reaches them. The `fuel` of a loop is an
upper bound of its number of rounds. -/

section Gnu
variable {α : Type}

/-- Models `std::iter_swap` on the positions `i` and `j` of the range. -/
def iterSwap (a : List α) (i j : Nat) : List α :=
  match a[i]?, a[j]? with
  | some x, some y => (a.set i y).set j x
  | _, _ => a

/-- Models `__move_median_to_first`: the median of the elements at `x`, `y`, `z` is swapped to
the position `result`. -/
def moveMedianToFirst (comp : α → α → Bool) (a : List α) (result x y z : Nat) : List α :=
  match a[x]?, a[y]?, a[z]? with
  | some va, some vb, some vc =>
    if comp va vb then
      if comp vb vc then iterSwap a result y
      else if comp va vc then iterSwap a result z
      else iterSwap a result x
    else if comp va vc then iterSwap a result x
    else if comp vb vc then iterSwap a result z
    else iterSwap a result y
  | _, _, _ => a

/-- The loop `while (comp(first, pivot)) ++first;` of `__unguarded_partition`; it returns the
position at which it stops. -/
def scanUp (comp : α → α → Bool) (a : List α) (pivot : Nat) : Nat → Nat → Nat
  | 0, first => first
  | fuel + 1, first =>
    match a[first]?, a[pivot]? with
    | some v, some p => if comp v p then scanUp comp a pivot fuel (first + 1) else first
    | _, _ => first

/-- The loop `while (comp(pivot, last)) --last;` of `__unguarded_partition`. -/
def scanDown (comp : α → α → Bool) (a : List α) (pivot : Nat) : Nat → Nat → Nat
  | 0, last => last
  | fuel + 1, last =>
    match a[last]?, a[pivot]? with
    | some v, some p => if comp p v then scanDown comp a pivot fuel (last - 1) else last
    | _, _ => last

/-- Models `__unguarded_partition`: the range and the cut position it returns. -/
def unguardedPartition (comp : α → α → Bool) (pivot : Nat) :
    Nat → List α → Nat → Nat → List α × Nat
  | 0, a, first, _ => (a, first)
  | fuel + 1, a, first, last =>
    let first1 := scanUp comp a pivot a.length first
    let last1 := scanDown comp a pivot a.length (last - 1)
    if first1 < last1 then
      unguardedPartition comp pivot fuel (iterSwap a first1 last1) (first1 + 1) last1
    else (a, first1)

/-- Models `__unguarded_partition_pivot`. -/
def unguardedPartitionPivot (comp : α → α → Bool) (a : List α) (first last : Nat) :
    List α × Nat :=
  let mid := first + (last - first) / 2
  let a1 := moveMedianToFirst comp a first (first + 1) mid (last - 1)
  unguardedPartition comp first a1.length a1 (first + 1) last

/-- Models `__push_heap`: the hole at `first + holeIndex` moves up while the parent compares
before `value`, then receives `value`. -/
def pushHeap (comp : α → α → Bool) (first topIndex : Nat) (value : α) :
    Nat → List α → Nat → List α
  | 0, a, holeIndex => a.set (first + holeIndex) value
  | fuel + 1, a, holeIndex =>
    let parent := (holeIndex - 1) / 2
    match a[first + parent]? with
    | some p =>
      if holeIndex > topIndex && comp p value then
        pushHeap comp first topIndex value fuel (a.set (first + holeIndex) p) parent
      else a.set (first + holeIndex) value
    | none => a.set (first + holeIndex) value

/-- The first loop of `__adjust_heap`: the hole moves down to the child that does not compare
before its sibling. It returns the range, the hole and `secondChild`. -/
def adjustHeapDown (comp : α → α → Bool) (first len : Nat) :
    Nat → List α → Nat → Nat → List α × Nat × Nat
  | 0, a, holeIndex, secondChild => (a, holeIndex, secondChild)
  | fuel + 1, a, holeIndex, secondChild =>
    if secondChild < (len - 1) / 2 then
      let child := 2 * (secondChild + 1)
      match a[first + child]?, a[first + (child - 1)]? with
      | some r, some l =>
        let child1 := if comp r l then child - 1 else child
        match a[first + child1]? with
        | some c =>
          adjustHeapDown comp first len fuel (a.set (first + holeIndex) c) child1 child1
        | none => (a, holeIndex, secondChild)
      | _, _ => (a, holeIndex, secondChild)
    else (a, holeIndex, secondChild)

/-- Models `__adjust_heap`. The distances of the library are signed: `(len - 2) / 2` is
negative for an empty range, which the test `2 ≤ len` renders. -/
def adjustHeap (comp : α → α → Bool) (a : List α) (first holeIndex len : Nat) (value : α) :
    List α :=
  let topIndex := holeIndex
  let (a1, hole1, secondChild1) := adjustHeapDown comp first len len a holeIndex holeIndex
  if len % 2 = 0 ∧ 2 ≤ len ∧ secondChild1 = (len - 2) / 2 then
    let child := 2 * (secondChild1 + 1)
    match a1[first + (child - 1)]? with
    | some c =>
      pushHeap comp first topIndex value len (a1.set (first + hole1) c) (child - 1)
    | none => pushHeap comp first topIndex value len a1 hole1
  else pushHeap comp first topIndex value len a1 hole1

/-- Models `__pop_heap(first, last, result)`. -/
def popHeap (comp : α → α → Bool) (a : List α) (first last result : Nat) : List α :=
  match a[result]?, a[first]? with
  | some value, some top => adjustHeap comp (a.set result top) first 0 (last - first) value
  | _, _ => a

/-- The loop of `__make_heap`, from `parent` down to 0. -/
def makeHeapLoop (comp : α → α → Bool) (first len : Nat) : Nat → List α → List α
  | 0, a =>
    match a[first]? with
    | some value => adjustHeap comp a first 0 len value
    | none => a
  | parent + 1, a =>
    match a[first + (parent + 1)]? with
    | some value =>
      makeHeapLoop comp first len parent (adjustHeap comp a first (parent + 1) len value)
    | none => a

/-- Models `__make_heap`. -/
def makeHeap (comp : α → α → Bool) (a : List α) (first last : Nat) : List α :=
  if last - first < 2 then a
  else makeHeapLoop comp first (last - first) ((last - first - 2) / 2) a

/-- The loop of `__heap_select` over the positions `i`, `i + 1`, ... below `last`. -/
def heapSelectLoop (comp : α → α → Bool) (first middle : Nat) : Nat → List α → Nat → List α
  | 0, a, _ => a
  | remaining + 1, a, i =>
    match a[i]?, a[first]? with
    | some vi, some vf =>
      heapSelectLoop comp first middle remaining
        (if comp vi vf then popHeap comp a first middle i else a) (i + 1)
    | _, _ => a

/-- Models `__heap_select`. -/
def heapSelect (comp : α → α → Bool) (a : List α) (first middle last : Nat) : List α :=
  heapSelectLoop comp first middle (last - middle) (makeHeap comp a first middle) middle

/-- Models `__sort_heap`: `count` is `last - first`. -/
def sortHeap (comp : α → α → Bool) (first : Nat) : Nat → List α → List α
  | 0, a => a
  | count + 1, a =>
    if count + 1 > 1 then
      sortHeap comp first count (popHeap comp a first (first + count) (first + count))
    else a

/-- Models `__partial_sort`. -/
def heapSortRange (comp : α → α → Bool) (a : List α) (first middle last : Nat) : List α :=
  sortHeap comp first (middle - first) (heapSelect comp a first middle last)

/-- Models `__introsort_loop`; the recursion is on `depth_limit`. -/
def introsortLoop (comp : α → α → Bool) : Nat → List α → Nat → Nat → List α
  | 0, a, first, last =>
    if last - first > 16 then heapSortRange comp a first last last else a
  | depth_limit + 1, a, first, last =>
    if last - first > 16 then
      let (a1, cut) := unguardedPartitionPivot comp a first last
      let a2 := introsortLoop comp depth_limit a1 cut last
      introsortLoop comp depth_limit a2 first cut
    else a

/-- Models the loop of `__unguarded_linear_insert` on the range before the position, read from
the position backwards: `val` moves past every element it compares before and stops at the
first one it does not compare before (or at the start of the range). -/
def linearInsertRev (comp : α → α → Bool) (val : α) : List α → List α
  | [] => [val]
  | x :: xs => if comp val x then x :: linearInsertRev comp val xs else val :: x :: xs

/-- Models `__unguarded_linear_insert(i)`: `before` is the range before the position `i` and
`val` the element at `i`; the result is the range up to and including `i`. -/
def unguardedLinearInsert (comp : α → α → Bool) (before : List α) (val : α) : List α :=
  (linearInsertRev comp val before.reverse).reverse

/-- The body of the loop of `__insertion_sort`: an element that compares before the first one is
moved to the front, any other is inserted by `__unguarded_linear_insert`. -/
def insertionStep (comp : α → α → Bool) (before : List α) (val : α) : List α :=
  match before with
  | [] => [val]
  | f :: _ => if comp val f then val :: before else unguardedLinearInsert comp before val

/-- Models `__insertion_sort`. -/
def insertionSort (comp : α → α → Bool) : List α → List α
  | [] => []
  | x :: xs => xs.foldl (insertionStep comp) [x]

/-- Models `__unguarded_insertion_sort` after the sorted range `before`. -/
def unguardedInsertionSort (comp : α → α → Bool) (before rest : List α) : List α :=
  rest.foldl (unguardedLinearInsert comp) before

/-- Models `__final_insertion_sort`. -/
def finalInsertionSort (comp : α → α → Bool) (a : List α) : List α :=
  if a.length > 16 then
    unguardedInsertionSort comp (insertionSort comp (a.take 16)) (a.drop 16)
  else insertionSort comp a

/-- Models `std::__lg`: the floor of the binary logarithm (0 at 0). -/
def lg : Nat → Nat → Nat
  | 0, _ => 0
  | fuel + 1, n => if n < 2 then 0 else lg fuel (n / 2) + 1

/-- Models `std::sort` of GNU libstdc++: `__introsort_loop` then `__final_insertion_sort`. -/
def gnuSort (comp : α → α → Bool) (a : List α) : List α :=
  match a with
  | [] => []
  | _ :: _ =>
    finalInsertionSort comp (introsortLoop comp (lg a.length a.length * 2) a 0 a.length)

end Gnu

/-! ## Files, directories and measurements

The input tree is the finite list of the entries that `fs::recursive_directory_iterator` yields
below the input directory, in the order in which it yields them. A path is the list of its
components. A symbolic link is an entry like any other: `is_regular_file()` and the input
stream follow it, and `weaklyCanonical` of the environment gives the path it resolves to. The
input and output directories are given in canonical form, and the output directory lies outside
the input tree. -/

/-- A path: the list of its components. -/
abbrev Path := List (List Char)

/-- An entry below the walked directory: the directories that lead to it from the walked
directory, its file name, what `is_regular_file()` answers for it (the call follows symbolic
links), and the content an input stream opened on it reads. -/
structure DirEntry where
  directory : Path
  name : List Char
  isRegularFile : Bool
  content : List Char

/-- What the run cannot decide by itself: whether a file stream opens on a path, the wall time
the clock measures around the processing of an input file, and the canonical form of a path,
`fs::weakly_canonical(p)`, in which every symbolic link is resolved (a path without links is its
own canonical form). -/
structure Env where
  inputOpens : Path → Bool
  outputOpens : Path → Bool
  elapsed : Path → ℚ
  weaklyCanonical : Path → Path

/-- The files created by the run, in the order of their creation, each with its content. -/
abbrev Files := List (Path × List Char)

/-- The path `entry.path()` of an entry found below `inputDirectory`. -/
def entryPath (inputDirectory : Path) (e : DirEntry) : Path :=
  inputDirectory ++ (e.directory ++ [e.name])

/-- Models `s->rfind('.')`: `last` is the position of the last dot seen before position `i`. -/
def rfindDot : List Char → Nat → Option Nat → Option Nat
  | [], _, last => last
  | c :: cs, i, last => rfindDot cs (i + 1) (if c = '.' then some i else last)

/-- The extension of a file name as `fs::path::extension` computes it: the text from the last
dot on, nothing for the names `.` and `..` and when the only dot is the first character. -/
def fileExtension (name : List Char) : List Char :=
  if name = [] then []
  else if name.length ≤ 2 ∧ name.head? = some '.' then []
  else
    match rfindDot name 0 none with
    | none => []
    | some 0 => []
    | some (pos + 1) => name.drop (pos + 1)

/-- Models `path.extension()`: the extension of the last component. -/
def extension (p : Path) : List Char :=
  match p.getLast? with
  | none => []
  | some name => fileExtension name

/-- Models `p.lexically_relative(base)`: the common leading components are dropped, and every
component left of `base` becomes `..`. -/
def lexicallyRelative : Path → Path → Path
  | c :: p, d :: base =>
    if c = d then lexicallyRelative p base
    else (d :: base).map (fun _ => ['.', '.']) ++ (c :: p)
  | p, [] => p
  | [], d :: base => (d :: base).map (fun _ => ['.', '.'])

/-- Models `fs::relative(p, base)`, which is
`weakly_canonical(p).lexically_relative(weakly_canonical(base))`: symbolic links are resolved
in both paths before the common leading components are dropped. -/
def relative (env : Env) (p base : Path) : Path :=
  lexicallyRelative (env.weaklyCanonical p) (env.weaklyCanonical base)

/-- The condition of the directory loops:
`is_regular_file() && path().extension() == ".txt"`. -/
def isTextFile (inputDirectory : Path) (e : DirEntry) : Bool :=
  e.isRegularFile && extension (entryPath inputDirectory e) == ['.', 't', 'x', 't']

/-- Size of a file in MiB: `fs::file_size(p) / 1024.0 / 1024.0`. -/
def sizeMiB (content : List Char) : ℚ :=
  (content.length : ℚ) / 1024 / 1024

/-- Outcome of a `double` division: a finite quotient, or what IEEE 754 yields for a zero
divisor, infinity for a non-zero dividend and NaN for a zero dividend. The dividends of the
tools are never negative. -/
inductive FloatQuotient where
  | finite (q : ℚ)
  | infinity
  | nan
  deriving DecidableEq

/-- The `double` division `x / t`. -/
def floatDiv (x t : ℚ) : FloatQuotient :=
  if t = 0 then (if x = 0 then FloatQuotient.nan else FloatQuotient.infinity)
  else FloatQuotient.finite (x / t)

/-! ## clean_dataset.cpp : files and statistics -/

namespace CleanDataset

/-- The accumulators `total_Size`, `sizes_` and `times_` of `clean_dataset.cpp`, with the files
created so far. -/
structure State where
  total_Size : ℚ
  sizes_ : List ℚ
  times_ : List ℚ
  files : Files

/-- The function `openFiles`: both streams are opened, the result tells whether both are open. -/
def openFiles (env : Env) (inputFile outputFile : Path) : Bool :=
  !(!env.inputOpens inputFile || !env.outputOpens outputFile)

/-- The loop of `processFile` over the lines of the input: each line is cleansed and written
with a newline. -/
def cleanseContent (content : List Char) : List Char :=
  ((getlines content).map (fun currentLine => cleanseLine currentLine ++ ['\n'])).flatten

/-- The function `processFile`: when both files open, every line is cleansed and written with a
newline; otherwise processing is aborted. Opening the output stream creates the output file
even when the input stream does not open. -/
def processFile (env : Env) (inputFile : Path) (content : List Char) (outputFile : Path)
    (files : Files) : Files :=
  if !openFiles env inputFile outputFile then
    if env.outputOpens outputFile then files ++ [(outputFile, [])] else files
  else files ++ [(outputFile, cleanseContent content)]

/-- The function `processSingleFile` with the statistics: the size is measured, the file is
processed, then the total, `sizes_` and `times_` are updated. -/
def processSingleFile (env : Env) (inputFile : Path) (content : List Char) (outputFile : Path)
    (s : State) : State :=
  let file_Size := sizeMiB content
  let files := processFile env inputFile content outputFile s.files
  let timeTaken := env.elapsed inputFile
  { total_Size := s.total_Size + file_Size
    sizes_ := s.sizes_ ++ [file_Size]
    times_ := s.times_ ++ [timeTaken]
    files := files }

/-- The function `processAllFilesInDirectory` with the statistics, over the entries of the
input tree. -/
def processAllFilesInDirectory (env : Env) (inputDirectory outputDirectory : Path)
    (tree : List DirEntry) (s : State) : State :=
  tree.foldl (fun st fileEntry =>
    if isTextFile inputDirectory fileEntry then
      let Relative_Path := relative env (entryPath inputDirectory fileEntry) inputDirectory
      let Output_Path := outputDirectory ++ Relative_Path
      processSingleFile env (entryPath inputDirectory fileEntry) fileEntry.content Output_Path st
    else st) s

/-- The plotting loop of `main`: `throughput.push_back(sizes_[i] / times_[i])` for every index
of `sizes_`. -/
def throughputSeries (sizes_ times_ : List ℚ) : List FloatQuotient :=
  (List.range sizes_.length).map (fun i => floatDiv (sizes_.getD i 0) (times_.getD i 0))

/-- The function `main` after the argument check: the final state and the two series handed to
the plot. -/
def main (env : Env) (InputDirectory OutputDirectory : Path) (tree : List DirEntry) :
    State × List ℚ × List FloatQuotient :=
  let s := processAllFilesInDirectory env InputDirectory OutputDirectory tree
    { total_Size := 0, sizes_ := [], times_ := [], files := [] }
  (s, s.sizes_, throughputSeries s.sizes_ s.times_)

end CleanDataset

/-- The accumulators of `count_words.cpp` and `sort_words.cpp` (total words, total time, file
sizes, throughput values), with the files created so far. -/
structure WordState where
  totalWords : Int
  totalTime : ℚ
  fileSizes : List ℚ
  throughputValues : List FloatQuotient
  files : Files

/-! ## count_words.cpp -/

namespace CountWords

/-- The function `extractWordCount`: `iss >> word >> count`, the empty pair when that fails. -/
def extractWordCount (line : List Char) : WordCount :=
  match extractString line with
  | none => ([], 0)
  | some (word, rest) =>
    match extractInt rest with
    | none => ([], 0)
    | some count => (word, count)

/-- The loop of `readWordCountsFromFile` over the lines of the file: an extracted pair is kept
when its word is not empty. -/
def readWordCounts (lines : List (List Char)) : List WordCount :=
  (lines.map extractWordCount).filter (fun wordCount => !wordCount.1.isEmpty)

/-- The function `readWordCountsFromFile` on the content of the file. -/
def readWordCountsFromFile (content : List Char) : List WordCount :=
  readWordCounts (getlines content)

/-- The comparator of `sortWordCountsDescending`: `a.second > b.second`. -/
def countGreater (a b : WordCount) : Bool :=
  decide (a.2 > b.2)

/-- The function `sortWordCountsDescending`: `std::sort` with the comparator `countGreater`. -/
def sortWordCountsDescending (stdSort : SortRoutine) (wordCounts : List WordCount) :
    List WordCount :=
  stdSort countGreater wordCounts

/-- One line written by `writeSortedWordCountsToFile`: word, space, count, newline. -/
def formatLine (wc : WordCount) : List Char :=
  wc.1 ++ ' ' :: (intToDecimal wc.2 ++ ['\n'])

/-- The function `writeSortedWordCountsToFile`: the content written to the output file. -/
def writeSortedWordCountsToFile (wordCounts : List WordCount) : List Char :=
  (wordCounts.map formatLine).flatten

/-- Read, sort, write: what the tool does to the lines of one file. -/
def transformLines (stdSort : SortRoutine) (lines : List (List Char)) : List WordCount :=
  sortWordCountsDescending stdSort (readWordCounts lines)

/-- Read, sort, write on the content of one file. -/
def transform (stdSort : SortRoutine) (content : List Char) : List Char :=
  writeSortedWordCountsToFile (sortWordCountsDescending stdSort (readWordCountsFromFile content))

/-- One round of the loop of `processDirectoryAndCalculateThroughput`: read, sort, write, then
record the sample. A file that does not open reads as empty; the output file exists when the
output stream opens. -/
def processEntry (stdSort : SortRoutine) (env : Env) (inputPath : Path) (content : List Char)
    (outputPath : Path) (s : WordState) : WordState :=
  let wordCounts := if env.inputOpens inputPath then readWordCountsFromFile content else []
  let fileSize := sizeMiB content
  let sorted := sortWordCountsDescending stdSort wordCounts
  let files :=
    if env.outputOpens outputPath then
      s.files ++ [(outputPath, writeSortedWordCountsToFile sorted)]
    else s.files
  let timeTaken := env.elapsed inputPath
  { totalWords := s.totalWords + (sorted.length : Int)
    totalTime := s.totalTime + timeTaken
    fileSizes := s.fileSizes ++ [fileSize]
    throughputValues := s.throughputValues ++ [floatDiv (sorted.length : ℚ) timeTaken]
    files := files }

/-- The function `processDirectoryAndCalculateThroughput` over the entries of the input tree. -/
def processDirectoryAndCalculateThroughput (stdSort : SortRoutine) (env : Env)
    (Input_Directory Output_Directory : Path) (tree : List DirEntry) (s : WordState) :
    WordState :=
  tree.foldl (fun st entry =>
    if isTextFile Input_Directory entry then
      let relativePath := relative env (entryPath Input_Directory entry) Input_Directory
      let outputPath := Output_Directory ++ relativePath
      processEntry stdSort env (entryPath Input_Directory entry) entry.content outputPath st
    else st) s

end CountWords

/-! ## sort_words.cpp -/

namespace SortWords

/-- The function `extractWordCountFromLine`: `iss >> word_cnt >> cnt`, the empty pair when that
fails. -/
def extractWordCountFromLine (line_ : List Char) : WordCount :=
  match extractString line_ with
  | none => ([], 0)
  | some (word_cnt, rest) =>
    match extractInt rest with
    | none => ([], 0)
    | some cnt => (word_cnt, cnt)

/-- The loop of `readWordCountsFromFile` over the lines of the file. -/
def readWordCounts (lines : List (List Char)) : List WordCount :=
  (lines.map extractWordCountFromLine).filter (fun wordCount => !wordCount.1.isEmpty)

/-- The function `readWordCountsFromFile` on the content of the file. -/
def readWordCountsFromFile (content : List Char) : List WordCount :=
  readWordCounts (getlines content)

/-- The comparator of `sortWordCountsDescending`: `a.second > b.second`. -/
def countGreater (a b : WordCount) : Bool :=
  decide (a.2 > b.2)

/-- The function `sortWordCountsDescending`: `std::sort` with the comparator `countGreater`. -/
def sortWordCountsDescending (stdSort : SortRoutine) (Word_Counts : List WordCount) :
    List WordCount :=
  stdSort countGreater Word_Counts

/-- One line written by `writeSortedWordCountsToFile`: word, space, count, newline. -/
def formatLine (wc : WordCount) : List Char :=
  wc.1 ++ ' ' :: (intToDecimal wc.2 ++ ['\n'])

/-- The function `writeSortedWordCountsToFile`: the content written to the output file. -/
def writeSortedWordCountsToFile (Word_Counts : List WordCount) : List Char :=
  (Word_Counts.map formatLine).flatten

/-- Read, sort, write: what the tool does to the lines of one file. -/
def transformLines (stdSort : SortRoutine) (lines : List (List Char)) : List WordCount :=
  sortWordCountsDescending stdSort (readWordCounts lines)

/-- Read, sort, write on the content of one file. -/
def transform (stdSort : SortRoutine) (content : List Char) : List Char :=
  writeSortedWordCountsToFile (sortWordCountsDescending stdSort (readWordCountsFromFile content))

/-- The function `processSingleFile` of `sort_words.cpp`: read, sort, write, then record the
sample. -/
def processSingleFile (stdSort : SortRoutine) (env : Env) (inputFile : Path)
    (content : List Char) (outputFile : Path) (s : WordState) : WordState :=
  let Word_Counts := if env.inputOpens inputFile then readWordCountsFromFile content else []
  let fileSizeInMiB := sizeMiB content
  let sorted := sortWordCountsDescending stdSort Word_Counts
  let files :=
    if env.outputOpens outputFile then
      s.files ++ [(outputFile, writeSortedWordCountsToFile sorted)]
    else s.files
  let timeTakenInSeconds := env.elapsed inputFile
  { totalWords := s.totalWords + (sorted.length : Int)
    totalTime := s.totalTime + timeTakenInSeconds
    fileSizes := s.fileSizes ++ [fileSizeInMiB]
    throughputValues := s.throughputValues ++ [floatDiv (sorted.length : ℚ) timeTakenInSeconds]
    files := files }

/-- The function `processAllFilesInDirectory` of `sort_words.cpp` over the entries of the input
tree. -/
def processAllFilesInDirectory (stdSort : SortRoutine) (env : Env)
    (inputDirectory outputDirectory : Path) (tree : List DirEntry) (s : WordState) :
    WordState :=
  tree.foldl (fun st fileEntry =>
    if isTextFile inputDirectory fileEntry then
      let Relative_Path := relative env (entryPath inputDirectory fileEntry) inputDirectory
      let Output_Path := outputDirectory ++ Relative_Path
      processSingleFile stdSort env (entryPath inputDirectory fileEntry) fileEntry.content
        Output_Path st
    else st) s

end SortWords

/-! ## Notions of the specification -/

/-- The whitespace-separated tokens of a line: its maximal runs of non-whitespace characters. -/
def tokens (line : List Char) : List (List Char) :=
  (line.splitOnP isSpace).filter (fun t => !t.isEmpty)

/-- A token that is an integer: an optional sign followed by decimal digits, at least one, and
nothing else. -/
def isIntegerToken (t : List Char) : Bool :=
  match t with
  | [] => false
  | c :: cs =>
    let body := if c = '-' ∨ c = '+' then cs else c :: cs
    !body.isEmpty && body.all isDigit

/-- The condition under which the specification keeps a line: exactly two tokens, the second an
integer. -/
def SpecWellFormed (line : List Char) : Bool :=
  match tokens line with
  | [_, t] => isIntegerToken t
  | _ => false

/-- A token that begins with an integer which fits the `int`: an optional sign, then a maximal
run of decimal digits, at least one, whose signed value lies between `INT_MIN` and `INT_MAX`;
`n` is that value. What follows the digits is free. -/
def BeginsWithInt (t : List Char) (n : Int) : Prop :=
  ∃ sign digits tail, t = sign ++ digits ++ tail ∧
    (sign = [] ∨ sign = ['-'] ∨ sign = ['+']) ∧
    digits ≠ [] ∧ (∀ d ∈ digits, isDigit d = true) ∧
    (∀ d, tail.head? = some d → isDigit d = false) ∧
    n = (if sign = ['-'] then -(digitsValue digits : Int) else (digitsValue digits : Int)) ∧
    INT_MIN ≤ n ∧ n ≤ INT_MAX

/-- Whether the reading loop of `count_words.cpp` keeps the line. -/
def CountWords.retains (line : List Char) : Bool :=
  !(CountWords.extractWordCount line).1.isEmpty

/-- Whether the reading loop of `sort_words.cpp` keeps the line. -/
def SortWords.retains (line : List Char) : Bool :=
  !(SortWords.extractWordCountFromLine line).1.isEmpty

/-- Stability of a sort by count: for every count, the entries with that count come in the
output in the order they have in the input. -/
def KeepsTieOrder (input output : List WordCount) : Prop :=
  ∀ c : Int, output.filter (fun e => decide (e.2 = c)) = input.filter (fun e => decide (e.2 = c))

/-- An entry of a word-count file: a non-empty word without whitespace and a count that fits
the `int`. -/
def ValidEntry (e : WordCount) : Prop :=
  e.1 ≠ [] ∧ (∀ c ∈ e.1, isSpace c = false) ∧ INT_MIN ≤ e.2 ∧ e.2 ≤ INT_MAX

/-- A decimal count that fits the `int`: an optional minus sign and decimal digits, at least
one, with a value between `INT_MIN` and `INT_MAX`. -/
def isDecimalCount (t : List Char) : Bool :=
  match t with
  | [] => false
  | c :: cs =>
    let digits := if c = '-' then cs else c :: cs
    !digits.isEmpty && digits.all isDigit &&
      (if c = '-' then decide (INT_MIN ≤ -(digitsValue digits : Int))
       else decide ((digitsValue digits : Int) ≤ INT_MAX))

/-- A line in the word-count file format: a non-empty word without whitespace, one space, a
decimal count that fits the `int`. -/
def isFormatLine (l : List Char) : Bool :=
  match l.dropWhile (fun c => !isSpace c) with
  | ' ' :: d => !(l.takeWhile (fun c => !isSpace c)).isEmpty && isDecimalCount d
  | _ => false

/-- A content in the word-count file format: every line is a format line and ends with a
newline. -/
def InWordCountFormat (content : List Char) : Bool :=
  (content.isEmpty || content.getLast? == some '\n') && (getlines content).all isFormatLine

/-- The count written on a format line. -/
def lineCount (l : List Char) : Int :=
  (numGet ((l.dropWhile (fun c => !isSpace c)).drop 1)).getD 0

/-- A content whose lines come by descending count. -/
def CountsDescending (content : List Char) : Prop :=
  ((getlines content).map lineCount).Pairwise (fun a b => a ≥ b)

/-- The environment in which every stream opens and no path holds a symbolic link; `elapsed` is
the measured time. -/
def allOpen (elapsed : Path → ℚ) : Env :=
  { inputOpens := fun _ => true, outputOpens := fun _ => true, elapsed := elapsed,
    weaklyCanonical := fun p => p }

/-- The entries `count_words.cpp` holds for a file after reading and sorting: those of the
content when the input stream opens, none otherwise. -/
def CountWords.entriesOf (stdSort : SortRoutine) (env : Env) (inputPath : Path)
    (content : List Char) : List WordCount :=
  CountWords.sortWordCountsDescending stdSort
    (if env.inputOpens inputPath then CountWords.readWordCountsFromFile content else [])

/-- The entries `sort_words.cpp` holds for a file after reading and sorting: those of the
content when the input stream opens, none otherwise. -/
def SortWords.entriesOf (stdSort : SortRoutine) (env : Env) (inputFile : Path)
    (content : List Char) : List WordCount :=
  SortWords.sortWordCountsDescending stdSort
    (if env.inputOpens inputFile then SortWords.readWordCountsFromFile content else [])

/-- The start of a run of `count_words.cpp` or `sort_words.cpp`: nothing counted, no file. -/
def WordState.initial : WordState :=
  { totalWords := 0, totalTime := 0, fileSizes := [], throughputValues := [], files := [] }

/-- The start of a run of `clean_dataset.cpp`. -/
def CleanDataset.State.initial : CleanDataset.State :=
  { total_Size := 0, sizes_ := [], times_ := [], files := [] }

/-- The entries of the tree the directory loops select: regular files with the extension
`.txt`. -/
def matchedEntries (tree : List DirEntry) : List DirEntry :=
  tree.filter (fun e => e.isRegularFile && fileExtension e.name == ['.', 't', 'x', 't'])

/-- The seventeen lines `a 1`, `b 1`, ..., `q 1`: equal counts throughout. -/
def seventeenTies : List (List Char) :=
  ["a 1", "b 1", "c 1", "d 1", "e 1", "f 1", "g 1", "h 1", "i 1", "j 1", "k 1", "l 1", "m 1",
   "n 1", "o 1", "p 1", "q 1"].map String.toList

/-- The example input of the specification for the word-count tools. -/
def exampleLines : List (List Char) :=
  ["cat 3", "dog 9", "bird notanumber", "fox 9"].map String.toList

/-- The content of a file made of the seventeen lines of `seventeenTies`. -/
def seventeenTiesContent : List Char :=
  (seventeenTies.map (fun l => l ++ ['\n'])).flatten

/-- A sorting routine that meets the contract of `std::sort` as well: the GNU sort run on the
reversed range. -/
def mirroredSort (comp : WordCount → WordCount → Bool) (a : List WordCount) : List WordCount :=
  gnuSort comp a.reverse

/-- An environment in which no input stream opens; every output stream opens and every
measured time is one second. -/
def unreadableEnv : Env :=
  { inputOpens := fun _ => false, outputOpens := fun _ => true, elapsed := fun _ => 1,
    weaklyCanonical := fun p => p }

/-- An environment in which every stream opens and the clock measures no time at all. -/
def instantEnv : Env :=
  { inputOpens := fun _ => true, outputOpens := fun _ => true, elapsed := fun _ => 0,
    weaklyCanonical := fun p => p }

/-- An environment in which no output stream opens; every input stream opens, there is no
symbolic link and every measured time is one second. -/
def unwritableEnv : Env :=
  { inputOpens := fun _ => true, outputOpens := fun _ => false, elapsed := fun _ => 1,
    weaklyCanonical := fun p => p }

/-- An environment in which `in/away.txt` is a symbolic link to the file `other/far.txt`, which
lies beside the input directory `in`; every stream opens and every measured time is one
second. -/
def linkedEnv : Env :=
  { inputOpens := fun _ => true, outputOpens := fun _ => true, elapsed := fun _ => 1,
    weaklyCanonical := fun p =>
      if p = ["in".toList, "away.txt".toList] then ["other".toList, "far.txt".toList] else p }

/-- The input tree of `linkedEnv`: the one entry `away.txt`, a symbolic link to a regular file
whose content is the line `x 1`. -/
def linkedTree : List DirEntry :=
  [ { directory := [], name := "away.txt".toList, isRegularFile := true,
      content := "x 1\n".toList } ]

/-- A small input tree: `a/b.txt` (one line), `a/empty.txt` (no content), `notes.md`, and the
directory `a` itself. -/
def sampleTree : List DirEntry :=
  [ { directory := [], name := "a".toList, isRegularFile := false, content := [] },
    { directory := ["a".toList], name := "b.txt".toList, isRegularFile := true,
      content := "cat 3\n".toList },
    { directory := ["a".toList], name := "empty.txt".toList, isRegularFile := true,
      content := [] },
    { directory := [], name := "notes.md".toList, isRegularFile := true,
      content := "x 1\n".toList } ]

/-! # Theorems -/

/-! ## cleanseLine -/

theorem deleteDisallowed_eq_filter (s : List Char) : deleteDisallowed s = s.filter isKept := by
  induction s with
  | nil => rfl
  | cons c cs ih =>
    by_cases h : isKept c = true <;> simp [deleteDisallowed, h, ih]

theorem mem_of_mem_collapseScan (s : List Char) :
    ∀ (run : Option Char) (x : Char), x ∈ collapseScan run s → x ∈ s := by
  induction s with
  | nil => intro run x hx; simp [collapseScan] at hx
  | cons c cs ih =>
    intro run x hx
    unfold collapseScan at hx
    split at hx
    · exact List.mem_cons_of_mem _ (ih _ _ hx)
    · split at hx
      · rcases List.mem_cons.mp hx with h | h
        · exact h ▸ List.mem_cons_self _ _
        · exact List.mem_cons_of_mem _ (ih _ _ h)
      · rcases List.mem_cons.mp hx with h | h
        · exact h ▸ List.mem_cons_self _ _
        · exact List.mem_cons_of_mem _ (ih _ _ h)

/-- Head of the scan's output: inside a match the captured character never comes first, outside a
match the first input character is copied or emitted. -/
theorem collapseScan_head (s : List Char) :
    (∀ r, (collapseScan (some r) s).head? ≠ some r) ∧
    (collapseScan none s).head? = s.head? := by
  induction s with
  | nil => simp [collapseScan]
  | cons c cs ih =>
    refine ⟨?_, ?_⟩
    · intro r
      unfold collapseScan
      split
      · exact ih.1 r
      · rename_i hne
        have hrc : r ≠ c := fun h => hne (by rw [h])
        split <;> simp [Ne.symm hrc]
    · unfold collapseScan
      simp
      split <;> simp

theorem collapseScan_noRepeat (s : List Char) :
    ∀ run : Option Char, NoRepeatedDelimiter (collapseScan run s) := by
  induction s with
  | nil => intro run; simp [collapseScan, NoRepeatedDelimiter]
  | cons c cs ih =>
    intro run
    unfold collapseScan
    split
    · exact ih run
    · split
      · rename_i hm
        unfold NoRepeatedDelimiter
        rw [List.chain'_cons']
        refine ⟨?_, ih _⟩
        intro y hy
        have hne := (collapseScan_head cs).1 c
        intro ⟨_, hcy⟩
        apply hne
        rw [Option.mem_def] at hy
        rw [hy, hcy]
      · rename_i hm
        unfold NoRepeatedDelimiter
        rw [List.chain'_cons']
        refine ⟨?_, ih _⟩
        intro y hy
        rw [(collapseScan_head cs).2] at hy
        intro ⟨hd, hcy⟩
        apply hm
        rw [Option.mem_def] at hy
        subst hcy
        simp [hd, hy]

theorem collapseScan_fixed (s : List Char) (h : NoRepeatedDelimiter s) :
    collapseScan none s = s := by
  induction s with
  | nil => rfl
  | cons c cs ih =>
    unfold NoRepeatedDelimiter at h
    rw [List.chain'_cons'] at h
    unfold collapseScan
    simp only [reduceCtorEq, ↓reduceIte]
    have hno : ¬ ((isDelimiter c && cs.head? == some c) = true) := by
      intro hm
      simp only [Bool.and_eq_true, beq_iff_eq] at hm
      exact h.1 c (by simpa using hm.2) ⟨hm.1, rfl⟩
    simp only [hno]
    simp [ih h.2]


theorem removeCarriageReturns_fixed (s : List Char) (h : ∀ x ∈ s, x ≠ '\r') :
    removeCarriageReturns s = s := by
  unfold removeCarriageReturns
  rw [List.filter_eq_self]
  intro x hx
  simpa using h x hx

theorem deleteDisallowed_fixed (s : List Char) (h : ∀ x ∈ s, isKept x = true) :
    deleteDisallowed s = s := by
  rw [deleteDisallowed_eq_filter, List.filter_eq_self]
  exact h

theorem cleanseLine_chars (s : List Char) :
    ∀ x ∈ cleanseLine s, x ≠ '\r' ∧ isKept x = true := by
  intro x hx
  unfold cleanseLine collapseDelimiters at hx
  have h1 := mem_of_mem_collapseScan _ _ _ hx
  rw [deleteDisallowed_eq_filter, List.mem_filter] at h1
  refine ⟨?_, h1.2⟩
  have h2 := h1.1
  unfold removeCarriageReturns at h2
  rw [List.mem_filter] at h2
  simpa using h2.2

/-- C4: the result of `cleanseLine` never holds the same delimiter character twice in a row, also
when two delimiters meet only because the characters between them were deleted; the example
line of the specification yields `Hello World\t123`. -/
theorem cleanseLine_no_repeated_delimiter :
    (∀ s : List Char, NoRepeatedDelimiter (cleanseLine s)) ∧
    cleanseLine "He!!llo   World\t\t123".toList = "Hello World\t123".toList ∧
    cleanseLine "a !\t! \r b".toList = "a \t b".toList := by
  refine ⟨fun s => collapseScan_noRepeat _ _, by decide, by decide⟩

/-- C5: `cleanseLine` is idempotent. -/
theorem cleanseLine_idempotent (s : List Char) : cleanseLine (cleanseLine s) = cleanseLine s := by
  have hc := cleanseLine_chars s
  have hn : NoRepeatedDelimiter (cleanseLine s) := collapseScan_noRepeat _ _
  generalize cleanseLine s = t at hc hn
  unfold cleanseLine collapseDelimiters
  rw [removeCarriageReturns_fixed _ (fun x hx => (hc x hx).1),
    deleteDisallowed_fixed _ (fun x hx => (hc x hx).2)]
  exact collapseScan_fixed _ hn

/-! ## The parser of the word-count tools -/

theorem splitOnP_takeWhile_dropWhile (p : Char → Bool) (xs : List Char) :
    xs.splitOnP p = xs.takeWhile (fun x => !p x) ::
      (match xs.dropWhile (fun x => !p x) with
        | [] => []
        | _ :: r => r.splitOnP p) := by
  induction xs with
  | nil => simp
  | cons x xs ih =>
    rw [List.splitOnP_cons]
    by_cases hx : p x = true
    · simp [hx]
    · simp only [hx, Bool.false_eq_true, ↓reduceIte]
      rw [ih]
      simp [List.modifyHead, hx]

theorem tokens_unfold (s : List Char) :
    tokens s = match s.dropWhile isSpace with
      | [] => []
      | c :: cs => (c :: cs).takeWhile (fun x => !isSpace x) ::
          tokens ((c :: cs).dropWhile (fun x => !isSpace x)) := by
  induction s with
  | nil => simp [tokens]
  | cons x xs ih =>
    by_cases hx : isSpace x = true
    · rw [List.dropWhile_cons_of_pos hx, ← ih]
      simp [tokens, List.splitOnP_cons, hx]
    · rw [List.dropWhile_cons_of_neg hx]
      simp only
      have hx' : (!isSpace x) = true := by simpa using hx
      unfold tokens
      rw [splitOnP_takeWhile_dropWhile isSpace (x :: xs)]
      rw [List.filter_cons]
      have hne : (!(List.takeWhile (fun x => !isSpace x) (x :: xs)).isEmpty) = true := by
        simp [List.takeWhile_cons, hx']
      rw [if_pos hne]
      congr 1
      cases hd : List.dropWhile (fun x => !isSpace x) (x :: xs) with
      | nil => simp
      | cons y r =>
        have hy : isSpace y = true := by
          have := List.head?_dropWhile_not (fun x => !isSpace x) (x :: xs)
          rw [hd] at this
          simpa using this
        simp [List.splitOnP_cons, hy]



theorem isSpace_false_of_isDigit (c : Char) (h : isDigit c = true) : isSpace c = false := by
  cases hs : isSpace c with
  | false => rfl
  | true =>
    exfalso
    simp only [isSpace, Bool.or_eq_true, decide_eq_true_eq] at hs
    rcases hs with ((((h1 | h1) | h1) | h1) | h1) | h1 <;> subst h1 <;> revert h <;> decide

theorem takeWhile_isDigit_token (l : List Char) :
    (l.takeWhile (fun x => !isSpace x)).takeWhile isDigit = l.takeWhile isDigit := by
  induction l with
  | nil => rfl
  | cons x xs ih =>
    by_cases hd : isDigit x = true
    · have hs := isSpace_false_of_isDigit x hd
      simp [List.takeWhile_cons, hd, hs, ih]
    · by_cases hs : isSpace x = true <;> simp [List.takeWhile_cons, hd, hs]

theorem numGet_token (c : Char) (cs : List Char) (hc : isSpace c = false) :
    numGet ((c :: cs).takeWhile (fun x => !isSpace x)) = numGet (c :: cs) := by
  have h1 : (c :: cs).takeWhile (fun x => !isSpace x)
      = c :: cs.takeWhile (fun x => !isSpace x) := by
    simp [List.takeWhile_cons, hc]
  rw [h1]
  unfold numGet
  have h2 : List.takeWhile isDigit (c :: List.takeWhile (fun x => !isSpace x) cs)
      = List.takeWhile isDigit (c :: cs) := by
    by_cases hd : isDigit c = true
    · simp [List.takeWhile_cons, hd, takeWhile_isDigit_token]
    · simp [List.takeWhile_cons, hd]
  by_cases hsign : c = '-' ∨ c = '+'
  · simp only [hsign, ↓reduceIte, takeWhile_isDigit_token]
  · simp only [hsign, ↓reduceIte, h2]

/-- What the parser returns, in terms of the whitespace-separated tokens of the line. -/
theorem extractWordCount_tokens (line : List Char) :
    CountWords.extractWordCount line =
      match tokens line with
      | w :: t :: _ => (match numGet t with
          | none => ([], 0)
          | some n => (w, n))
      | _ => ([], 0) := by
  rw [tokens_unfold line]
  unfold CountWords.extractWordCount extractString
  cases h1 : List.dropWhile isSpace line with
  | nil => rfl
  | cons c cs =>
    simp only
    rw [tokens_unfold]
    unfold extractInt
    cases h2 : List.dropWhile isSpace (List.dropWhile (fun x => !isSpace x) (c :: cs)) with
    | nil => simp [numGet]
    | cons d ds =>
      have hd : isSpace d = false := by
        have := List.head?_dropWhile_not isSpace (List.dropWhile (fun x => !isSpace x) (c :: cs))
        rw [h2] at this
        simpa using this
      simp only
      rw [numGet_token d ds hd]

theorem word_ne_nil_of_tokens (line : List Char) (w : List Char) (ts : List (List Char))
    (h : tokens line = w :: ts) : w ≠ [] := by
  have hm : w ∈ tokens line := by rw [h]; exact List.mem_cons_self _ _
  unfold tokens at hm
  rw [List.mem_filter] at hm
  intro hw
  rw [hw] at hm
  simp at hm


/-- Unfolding of `numGet` on a non-empty text. -/
theorem numGet_cons_eq_some (c : Char) (cs : List Char) (n : Int) :
    numGet (c :: cs) = some n ↔
      ((if c = '-' ∨ c = '+' then cs else c :: cs).takeWhile isDigit ≠ [] ∧
        n = (if c = '-'
          then -(digitsValue ((if c = '-' ∨ c = '+' then cs else c :: cs).takeWhile isDigit) : Int)
          else (digitsValue ((if c = '-' ∨ c = '+' then cs else c :: cs).takeWhile isDigit) : Int)) ∧
        INT_MIN ≤ n ∧ n ≤ INT_MAX) := by
  unfold numGet
  dsimp only
  generalize (if c = '-' ∨ c = '+' then cs else c :: cs).takeWhile isDigit = digits
  generalize (if c = '-' then -(digitsValue digits : Int) else (digitsValue digits : Int)) = v
  by_cases h1 : digits = []
  · rw [if_pos h1]
    constructor
    · intro h; exact absurd h (by simp)
    · intro h; exact absurd h1 h.1
  · rw [if_neg h1]
    by_cases hr : INT_MIN ≤ v ∧ v ≤ INT_MAX
    · rw [if_pos hr]
      constructor
      · intro h
        have hn := Option.some.inj h
        rw [← hn]
        exact ⟨h1, rfl, hr⟩
      · rintro ⟨_, hn, _⟩
        rw [hn]
    · rw [if_neg hr]
      constructor
      · intro h; exact absurd h (by simp)
      · rintro ⟨_, hn, hlo, hhi⟩
        rw [hn] at hlo hhi
        exact absurd ⟨hlo, hhi⟩ hr

theorem numGet_range (t : List Char) (n : Int) (h : numGet t = some n) :
    INT_MIN ≤ n ∧ n ≤ INT_MAX := by
  cases t with
  | nil => simp [numGet] at h
  | cons c cs => exact ((numGet_cons_eq_some c cs n).mp h).2.2

theorem takeWhile_append_stop (p : Char → Bool) (ds tail : List Char)
    (hds : ∀ d ∈ ds, p d = true) (htail : ∀ d, tail.head? = some d → p d = false) :
    (ds ++ tail).takeWhile p = ds := by
  rw [List.takeWhile_append_of_pos hds]
  cases tail with
  | nil => simp
  | cons x xs =>
    have := htail x rfl
    simp [List.takeWhile_cons, this]

theorem isDigit_ne_sign (c : Char) (h : isDigit c = true) : ¬ (c = '-' ∨ c = '+') := by
  rintro (hc | hc) <;> subst hc <;> revert h <;> decide

theorem head_dropWhile_isDigit (l : List Char) (d : Char)
    (hd : (l.dropWhile isDigit).head? = some d) : isDigit d = false := by
  have := List.head?_dropWhile_not isDigit l
  rw [hd] at this
  simpa using this

/-- The integer extraction succeeds with `n` exactly on a text that begins with an integer
literal of value `n` which fits the `int`. -/
theorem numGet_eq_some_iff (t : List Char) (n : Int) :
    numGet t = some n ↔ BeginsWithInt t n := by
  constructor
  · intro h
    cases t with
    | nil => simp [numGet] at h
    | cons c cs =>
      obtain ⟨hne, hn, hlo, hhi⟩ := (numGet_cons_eq_some c cs n).mp h
      by_cases hs : c = '-' ∨ c = '+'
      · simp only [hs, ↓reduceIte] at hne hn
        refine ⟨[c], cs.takeWhile isDigit, cs.dropWhile isDigit, by simp, ?_, hne,
          fun d hd => List.mem_takeWhile_imp hd, head_dropWhile_isDigit cs, ?_, hlo, hhi⟩
        · rcases hs with hs | hs <;> simp [hs]
        · rw [hn]
          by_cases hm : c = '-' <;> simp [hm]
      · simp only [hs, ↓reduceIte] at hne hn
        have hm : ¬ c = '-' := fun hc => hs (Or.inl hc)
        simp only [hm, ↓reduceIte] at hn
        refine ⟨[], (c :: cs).takeWhile isDigit, (c :: cs).dropWhile isDigit, by simp,
          Or.inl rfl, hne, fun d hd => List.mem_takeWhile_imp hd,
          head_dropWhile_isDigit (c :: cs), ?_, hlo, hhi⟩
        rw [hn]; simp
  · rintro ⟨sign, digits, tail, ht, hsign, hne, hdig, htail, hn, hlo, hhi⟩
    have htw := takeWhile_append_stop isDigit digits tail hdig htail
    rcases hsign with hs | hs | hs
    · subst hs
      cases digits with
      | nil => exact absurd rfl hne
      | cons d ds =>
        have hd : isDigit d = true := hdig d (List.mem_cons_self _ _)
        have hns := isDigit_ne_sign d hd
        have hm : ¬ d = '-' := fun hc => hns (Or.inl hc)
        have ht' : t = d :: (ds ++ tail) := by rw [ht]; rfl
        have htw' : List.takeWhile isDigit (d :: (ds ++ tail)) = d :: ds := htw
        rw [ht', numGet_cons_eq_some, if_neg hns, if_neg hm, htw']
        refine ⟨hne, ?_, hlo, hhi⟩
        rw [hn]; simp
    · subst hs
      have ht' : t = '-' :: (digits ++ tail) := by rw [ht]; rfl
      rw [ht', numGet_cons_eq_some, if_pos (Or.inl rfl), if_pos rfl, htw]
      refine ⟨hne, ?_, hlo, hhi⟩
      rw [hn]; simp
    · subst hs
      have ht' : t = '+' :: (digits ++ tail) := by rw [ht]; rfl
      have hpm : ¬ ('+' = '-') := by decide
      rw [ht', numGet_cons_eq_some, if_pos (Or.inr rfl), if_neg hpm, htw]
      refine ⟨hne, ?_, hlo, hhi⟩
      rw [hn]
      have hpm2 : ¬ (['+'] = ['-']) := by decide
      simp [hpm2]

theorem sortWords_extract_eq :
    SortWords.extractWordCountFromLine = CountWords.extractWordCount := by
  funext line
  rfl

theorem sortWords_retains_eq : SortWords.retains = CountWords.retains := by
  funext line
  rfl

theorem sortWords_readWordCounts_eq : SortWords.readWordCounts = CountWords.readWordCounts := by
  funext lines
  rfl

theorem retains_iff_tokens (line : List Char) :
    CountWords.retains line = true ↔
      ∃ w t rest n, tokens line = w :: t :: rest ∧ numGet t = some n := by
  unfold CountWords.retains
  rw [extractWordCount_tokens]
  constructor
  · intro h
    cases hts : tokens line with
    | nil => rw [hts] at h; simp at h
    | cons w ts =>
      cases ts with
      | nil => rw [hts] at h; simp at h
      | cons t rest =>
        rw [hts] at h
        dsimp only at h
        cases hn : numGet t with
        | none => rw [hn] at h; simp at h
        | some n => exact ⟨w, t, rest, n, rfl, hn⟩
  · rintro ⟨w, t, rest, n, hts, hn⟩
    rw [hts]
    dsimp only
    have hw := word_ne_nil_of_tokens line w _ hts
    rw [hn]
    simpa using hw

/-- An entry the parser keeps, in terms of the tokens of its line. -/
theorem retained_entry (line : List Char) (h : CountWords.retains line = true) :
    ∃ w t rest n, tokens line = w :: t :: rest ∧ numGet t = some n ∧
      CountWords.extractWordCount line = (w, n) := by
  obtain ⟨w, t, rest, n, hts, hn⟩ := (retains_iff_tokens line).mp h
  refine ⟨w, t, rest, n, hts, hn, ?_⟩
  rw [extractWordCount_tokens, hts]
  dsimp only
  rw [hn]

/-- C3, as the code has it: a line is kept exactly when it has at least two whitespace-separated
tokens and the second token begins with an integer (optional sign, then decimal digits) that
fits the 32-bit `int`; the entry is then the first token with that integer. Tokens after the
second and what follows the digits in the second token are ignored. A line that is not kept
contributes no entry. The same holds for `sort_words.cpp`. -/
theorem parser_retains_iff (line : List Char) :
    (CountWords.retains line = true ↔
      ∃ w t rest n, tokens line = w :: t :: rest ∧ BeginsWithInt t n) ∧
    (SortWords.retains line = true ↔
      ∃ w t rest n, tokens line = w :: t :: rest ∧ BeginsWithInt t n) ∧
    (∀ w t rest n, tokens line = w :: t :: rest → BeginsWithInt t n →
      CountWords.extractWordCount line = (w, n) ∧
      SortWords.extractWordCountFromLine line = (w, n)) ∧
    CountWords.readWordCounts [line]
      = (if CountWords.retains line = true then [CountWords.extractWordCount line] else []) ∧
    SortWords.readWordCounts [line]
      = (if SortWords.retains line = true then [SortWords.extractWordCountFromLine line]
          else []) := by
  have hread : CountWords.readWordCounts [line]
      = (if CountWords.retains line = true then [CountWords.extractWordCount line] else []) := by
    unfold CountWords.readWordCounts CountWords.retains
    rw [List.map_singleton, List.filter_cons, List.filter_nil]
  have key : CountWords.retains line = true ↔
      ∃ w t rest n, tokens line = w :: t :: rest ∧ BeginsWithInt t n := by
    rw [retains_iff_tokens]
    constructor
    · rintro ⟨w, t, rest, n, hts, hn⟩
      exact ⟨w, t, rest, n, hts, (numGet_eq_some_iff t n).mp hn⟩
    · rintro ⟨w, t, rest, n, hts, hn⟩
      exact ⟨w, t, rest, n, hts, (numGet_eq_some_iff t n).mpr hn⟩
  refine ⟨key, ?_, ?_, hread, hread⟩
  · rw [sortWords_retains_eq]; exact key
  · intro w t rest n hts hb
    have hn := (numGet_eq_some_iff t n).mpr hb
    have : CountWords.extractWordCount line = (w, n) := by
      rw [extractWordCount_tokens, hts]
      dsimp only
      rw [hn]
    exact ⟨this, by rw [sortWords_extract_eq]; exact this⟩

/-- C3 fails as stated: `cat 3 extra` (three tokens) and `cat 3abc` (second token not an
integer) are kept, and `cat 2147483648` (two tokens, the second an integer) is dropped. -/
theorem parser_retains_counterexample :
    (CountWords.retains "cat 3 extra".toList = true ∧
      SortWords.retains "cat 3 extra".toList = true ∧
      SpecWellFormed "cat 3 extra".toList = false) ∧
    (CountWords.retains "cat 3abc".toList = true ∧
      SpecWellFormed "cat 3abc".toList = false) ∧
    (CountWords.retains "cat 2147483648".toList = false ∧
      SpecWellFormed "cat 2147483648".toList = true) := by
  decide

/-! ## Writing and reading back -/

theorem digit_char (k : Nat) (hk : k < 10) :
    isDigit (Char.ofNat ('0'.toNat + k)) = true ∧
    digitValue (Char.ofNat ('0'.toNat + k)) = k := by
  interval_cases k <;> decide

theorem digitsValue_append_singleton (ds : List Char) (d : Char) :
    digitsValue (ds ++ [d]) = 10 * digitsValue ds + digitValue d := by
  simp [digitsValue, List.foldl_append]

theorem natToDecimalAux_spec :
    ∀ (fuel n : Nat) (acc : List Char), n < fuel →
      ∃ ds, natToDecimalAux fuel n acc = ds ++ acc ∧ ds ≠ [] ∧
        (∀ d ∈ ds, isDigit d = true) ∧ digitsValue ds = n := by
  intro fuel
  induction fuel with
  | zero => intro n acc h; exact absurd h (Nat.not_lt_zero _)
  | succ fuel ih =>
    intro n acc h
    unfold natToDecimalAux
    dsimp only
    have hk := digit_char (n % 10) (Nat.mod_lt _ (by decide))
    by_cases h0 : n / 10 = 0
    · rw [if_pos h0]
      refine ⟨[Char.ofNat ('0'.toNat + n % 10)], rfl, by simp, ?_, ?_⟩
      · intro d hd
        rw [List.mem_singleton] at hd
        rw [hd]; exact hk.1
      · have : digitsValue [Char.ofNat ('0'.toNat + n % 10)]
            = digitValue (Char.ofNat ('0'.toNat + n % 10)) := by
          simp [digitsValue]
        rw [this, hk.2]
        omega
    · rw [if_neg h0]
      have hlt : n / 10 < fuel := by omega
      obtain ⟨ds, hds, _, hdig, hval⟩ := ih (n / 10) (Char.ofNat ('0'.toNat + n % 10) :: acc) hlt
      refine ⟨ds ++ [Char.ofNat ('0'.toNat + n % 10)], ?_, by simp, ?_, ?_⟩
      · rw [hds]; simp
      · intro d hd
        rcases List.mem_append.mp hd with hd | hd
        · exact hdig d hd
        · rw [List.mem_singleton] at hd
          rw [hd]; exact hk.1
      · rw [digitsValue_append_singleton, hval, hk.2]
        omega

theorem natToDecimal_spec (n : Nat) :
    natToDecimal n ≠ [] ∧ (∀ d ∈ natToDecimal n, isDigit d = true) ∧
      digitsValue (natToDecimal n) = n := by
  obtain ⟨ds, hds, hne, hdig, hval⟩ := natToDecimalAux_spec (n + 1) n [] (Nat.lt_succ_self n)
  unfold natToDecimal
  rw [hds, List.append_nil]
  exact ⟨hne, hdig, hval⟩

/-- Reading a printed count gives the count back. -/
theorem numGet_intToDecimal (n : Int) (hlo : INT_MIN ≤ n) (hhi : n ≤ INT_MAX) :
    numGet (intToDecimal n) = some n := by
  rw [numGet_eq_some_iff]
  obtain ⟨hne, hdig, hval⟩ := natToDecimal_spec n.natAbs
  unfold intToDecimal
  by_cases hn : n < 0
  · rw [if_pos hn]
    refine ⟨['-'], natToDecimal n.natAbs, [], by simp, Or.inr (Or.inl rfl), hne, hdig,
      by simp, ?_, hlo, hhi⟩
    rw [if_pos rfl, hval]
    omega
  · rw [if_neg hn]
    refine ⟨[], natToDecimal n.natAbs, [], by simp, Or.inl rfl, hne, hdig, by simp, ?_, hlo, hhi⟩
    have hne' : ¬ (([] : List Char) = ['-']) := by simp
    rw [if_neg hne', hval]
    omega

theorem intToDecimal_chars (n : Int) :
    ∀ c ∈ intToDecimal n, isSpace c = false ∧ c ≠ '\n' := by
  intro c hc
  have hd := (natToDecimal_spec n.natAbs).2.1
  have hdigit : ∀ d, isDigit d = true → isSpace d = false ∧ d ≠ '\n' := by
    intro d h
    have hs := isSpace_false_of_isDigit d h
    refine ⟨hs, ?_⟩
    intro hnl
    rw [hnl] at hs
    revert hs
    decide
  unfold intToDecimal at hc
  split at hc
  · rcases List.mem_cons.mp hc with h | h
    · rw [h]; decide
    · exact hdigit c (hd c h)
  · exact hdigit c (hd c hc)

theorem intToDecimal_ne_nil (n : Int) : intToDecimal n ≠ [] := by
  unfold intToDecimal
  split
  · simp
  · exact (natToDecimal_spec n.natAbs).1

theorem dropWhile_isSpace_of_head (l : List Char) (h : ∀ c, l.head? = some c → isSpace c = false) :
    l.dropWhile isSpace = l := by
  cases l with
  | nil => rfl
  | cons x xs =>
    have := h x rfl
    simp [List.dropWhile_cons, this]

/-- The parser reads a written line back as the entry it was written from. -/
theorem extractWordCount_written (e : WordCount) (he : ValidEntry e) :
    CountWords.extractWordCount (e.1 ++ ' ' :: intToDecimal e.2) = e := by
  obtain ⟨w, n⟩ := e
  obtain ⟨hw, hws, hlo, hhi⟩ := he
  dsimp only at hw hws hlo hhi ⊢
  have hns : ∀ c ∈ w, (fun x => !isSpace x) c = true := by
    intro c hc; simp [hws c hc]
  have hsp : isSpace ' ' = true := by decide
  have h1 : (w ++ ' ' :: intToDecimal n).dropWhile isSpace = w ++ ' ' :: intToDecimal n := by
    apply dropWhile_isSpace_of_head
    intro c hc
    cases w with
    | nil => exact absurd rfl hw
    | cons x xs =>
      simp only [List.cons_append, List.head?_cons, Option.some.injEq] at hc
      rw [← hc]; exact hws x (List.mem_cons_self _ _)
  have h2 : (w ++ ' ' :: intToDecimal n).takeWhile (fun x => !isSpace x) = w := by
    rw [List.takeWhile_append_of_pos hns]
    simp [List.takeWhile_cons, hsp]
  have h3 : (w ++ ' ' :: intToDecimal n).dropWhile (fun x => !isSpace x)
      = ' ' :: intToDecimal n := by
    rw [List.dropWhile_append_of_pos hns]
    simp [List.dropWhile_cons, hsp]
  have h4 : (' ' :: intToDecimal n).dropWhile isSpace = intToDecimal n := by
    rw [List.dropWhile_cons_of_pos hsp]
    apply dropWhile_isSpace_of_head
    intro c hc
    exact (intToDecimal_chars n c (List.mem_of_mem_head? hc)).1
  unfold CountWords.extractWordCount extractString
  rw [h1]
  cases hwl : w ++ ' ' :: intToDecimal n with
  | nil => simp at hwl
  | cons c cs =>
    dsimp only
    rw [← hwl, h2, h3]
    unfold extractInt
    rw [h4, numGet_intToDecimal n hlo hhi]

theorem getlinesAux_line (l : List Char) (hl : ∀ c ∈ l, c ≠ '\n') :
    ∀ (cur rest : List Char),
      getlinesAux cur (l ++ '\n' :: rest) = (cur.reverse ++ l) :: getlinesAux [] rest := by
  induction l with
  | nil => intro cur rest; simp [getlinesAux]
  | cons x xs ih =>
    intro cur rest
    have hx : x ≠ '\n' := hl x (List.mem_cons_self _ _)
    have hxs : ∀ c ∈ xs, c ≠ '\n' := fun c hc => hl c (List.mem_cons_of_mem _ hc)
    rw [List.cons_append]
    conv_lhs => unfold getlinesAux
    rw [if_neg hx, ih hxs]
    simp

theorem formatLine_eq (e : WordCount) :
    CountWords.formatLine e = (e.1 ++ ' ' :: intToDecimal e.2) ++ '\n' :: [] := by
  unfold CountWords.formatLine
  simp

theorem written_line_no_newline (e : WordCount) (he : ValidEntry e) :
    ∀ c ∈ e.1 ++ ' ' :: intToDecimal e.2, c ≠ '\n' := by
  intro c hc
  rcases List.mem_append.mp hc with h | h
  · intro hnl
    have := he.2.1 c h
    rw [hnl] at this
    revert this
    decide
  · rcases List.mem_cons.mp h with h | h
    · rw [h]; decide
    · exact (intToDecimal_chars e.2 c h).2

theorem getlines_written (es : List WordCount) (hes : ∀ e ∈ es, ValidEntry e) :
    getlines (CountWords.writeSortedWordCountsToFile es)
      = es.map (fun e => e.1 ++ ' ' :: intToDecimal e.2) := by
  unfold getlines CountWords.writeSortedWordCountsToFile
  induction es with
  | nil => simp [getlinesAux]
  | cons e es ih =>
    have he := hes e (List.mem_cons_self _ _)
    have hes' : ∀ x ∈ es, ValidEntry x := fun x hx => hes x (List.mem_cons_of_mem _ hx)
    rw [List.map_cons, List.flatten_cons, formatLine_eq, List.append_assoc, List.cons_append,
      List.nil_append, getlinesAux_line _ (written_line_no_newline e he), ih hes']
    simp

/-- Reading a written file gives back the entries it was written from. -/
theorem read_written (es : List WordCount) (hes : ∀ e ∈ es, ValidEntry e) :
    CountWords.readWordCountsFromFile (CountWords.writeSortedWordCountsToFile es) = es := by
  unfold CountWords.readWordCountsFromFile CountWords.readWordCounts
  rw [getlines_written es hes, List.map_map]
  have hmap : List.map (CountWords.extractWordCount ∘ fun e => e.1 ++ ' ' :: intToDecimal e.2) es
      = es := by
    conv_rhs => rw [← List.map_id es]
    apply List.map_congr_left
    intro e he
    exact extractWordCount_written e (hes e he)
  rw [hmap, List.filter_eq_self]
  intro e he
  have := (hes e he).1
  simpa using this

/-- Every entry the parser keeps is an entry of a word-count file: a non-empty word without
whitespace and a count that fits the `int`. -/
theorem retained_valid (lines : List (List Char)) :
    ∀ e ∈ CountWords.readWordCounts lines, ValidEntry e := by
  intro e he
  unfold CountWords.readWordCounts at he
  rw [List.mem_filter, List.mem_map] at he
  obtain ⟨⟨line, _, hline⟩, hne⟩ := he
  have hret : CountWords.retains line = true := by
    unfold CountWords.retains
    rw [hline]; exact hne
  obtain ⟨w, t, rest, n, hts, hn, hex⟩ := retained_entry line hret
  rw [hline] at hex
  rw [hex]
  have hr := numGet_range t n hn
  refine ⟨word_ne_nil_of_tokens line w _ hts, ?_, hr.1, hr.2⟩
  intro c hc
  rw [tokens_unfold] at hts
  split at hts
  · simp at hts
  · rename_i x xs _
    simp only [List.cons.injEq] at hts
    dsimp only at hc
    rw [← hts.1] at hc
    have := List.mem_takeWhile_imp hc
    simpa using this

/-! ## The GNU sort meets the contract of `std::sort` -/

section GnuProofs
variable {α : Type}

theorem cons_set_perm (v : α) : ∀ (xs : List α) (j : Nat) (p : α), xs[j]? = some p →
    (p :: xs.set j v).Perm (v :: xs) := by
  intro xs
  induction xs with
  | nil => intro j p h; simp at h
  | cons y ys ih =>
    intro j p h
    cases j with
    | zero =>
      simp only [List.getElem?_cons_zero, Option.some.injEq] at h
      subst h
      exact List.Perm.swap _ _ _
    | succ j =>
      simp only [List.getElem?_cons_succ] at h
      simp only [List.set_cons_succ]
      exact (List.Perm.swap _ _ _).trans
        (((ih j p h).cons y).trans (List.Perm.swap _ _ _))

theorem cons_set_swap_perm (v x : α) : ∀ (xs : List α) (i : Nat), i < xs.length →
    (v :: xs.set i x).Perm (x :: xs.set i v) := by
  intro xs
  induction xs with
  | nil => intro i hi; simp at hi
  | cons y ys ih =>
    intro i hi
    cases i with
    | zero => simpa using List.Perm.swap _ _ _
    | succ i =>
      simp only [List.set_cons_succ]
      have hi' : i < ys.length := by simpa using hi
      exact (List.Perm.swap _ _ _).trans (((ih i hi').cons y).trans (List.Perm.swap _ _ _))

/-- Writing `p`, the element at `j`, to `i` and then `v` to `j` rearranges the list in which `v`
was written to `i`. -/
theorem set_set_perm_set (v : α) : ∀ (a : List α) (i j : Nat) (p : α), a[j]? = some p →
    i < a.length → ((a.set i p).set j v).Perm (a.set i v) := by
  intro a
  induction a with
  | nil => intro i j p h; simp at h
  | cons x xs ih =>
    intro i j p h hi
    cases i with
    | zero =>
      cases j with
      | zero =>
        simp only [List.getElem?_cons_zero, Option.some.injEq] at h
        subst h
        simp
      | succ j =>
        simp only [List.getElem?_cons_succ] at h
        simpa using cons_set_perm v xs j p h
    | succ i =>
      cases j with
      | zero =>
        simp only [List.getElem?_cons_zero, Option.some.injEq] at h
        subst h
        simpa using cons_set_swap_perm v x xs i (by simpa using hi)
      | succ j =>
        simp only [List.getElem?_cons_succ] at h
        simpa using (ih i j p h (by simpa using hi)).cons x

theorem set_self_of_getElem? (a : List α) (i : Nat) (x : α) (h : a[i]? = some x) :
    a.set i x = a := by
  induction a generalizing i with
  | nil => rfl
  | cons y ys ih =>
    cases i with
    | zero => simp at h; simp [h]
    | succ i => simp at h; simp [ih i h]

theorem iterSwap_perm (a : List α) (i j : Nat) : (iterSwap a i j).Perm a := by
  unfold iterSwap
  split
  · rename_i x y hx hy
    have hi : i < a.length := (List.getElem?_eq_some.mp hx).1
    have h := set_set_perm_set x a i j y hy hi
    rw [set_self_of_getElem? a i x hx] at h
    exact h
  · exact List.Perm.refl _

theorem moveMedianToFirst_perm (comp : α → α → Bool) (a : List α) (result x y z : Nat) :
    (moveMedianToFirst comp a result x y z).Perm a := by
  unfold moveMedianToFirst
  split
  · split
    · split
      · exact iterSwap_perm _ _ _
      · split <;> exact iterSwap_perm _ _ _
    · split
      · exact iterSwap_perm _ _ _
      · split <;> exact iterSwap_perm _ _ _
  · exact List.Perm.refl _

theorem unguardedPartition_perm (comp : α → α → Bool) (pivot : Nat) :
    ∀ (fuel : Nat) (a : List α) (first last : Nat),
      (unguardedPartition comp pivot fuel a first last).1.Perm a := by
  intro fuel
  induction fuel with
  | zero => intro a first last; exact List.Perm.refl _
  | succ fuel ih =>
    intro a first last
    unfold unguardedPartition
    simp only
    split
    · exact (ih _ _ _).trans (iterSwap_perm _ _ _)
    · exact List.Perm.refl _

theorem unguardedPartitionPivot_perm (comp : α → α → Bool) (a : List α) (first last : Nat) :
    (unguardedPartitionPivot comp a first last).1.Perm a := by
  unfold unguardedPartitionPivot
  exact (unguardedPartition_perm _ _ _ _ _ _).trans (moveMedianToFirst_perm _ _ _ _ _ _)

theorem pushHeap_perm (comp : α → α → Bool) (first topIndex : Nat) (value : α) :
    ∀ (fuel : Nat) (a : List α) (holeIndex : Nat), first + holeIndex < a.length →
      (pushHeap comp first topIndex value fuel a holeIndex).Perm
        (a.set (first + holeIndex) value) := by
  intro fuel
  induction fuel with
  | zero => intro a holeIndex _; exact List.Perm.refl _
  | succ fuel ih =>
    intro a holeIndex hh
    unfold pushHeap
    simp only
    split
    · rename_i p hp
      split
      · have hlt : first + (holeIndex - 1) / 2 < (a.set (first + holeIndex) p).length := by
          rw [List.length_set]
          exact (List.getElem?_eq_some.mp hp).1
        exact (ih _ _ hlt).trans (set_set_perm_set value a _ _ p hp hh)
      · exact List.Perm.refl _
    · exact List.Perm.refl _

theorem adjustHeapDown_perm (comp : α → α → Bool) (first len : Nat) (value : α) :
    ∀ (fuel : Nat) (a : List α) (holeIndex secondChild : Nat), first + holeIndex < a.length →
      first + (adjustHeapDown comp first len fuel a holeIndex secondChild).2.1
          < (adjustHeapDown comp first len fuel a holeIndex secondChild).1.length ∧
      ((adjustHeapDown comp first len fuel a holeIndex secondChild).1.set
          (first + (adjustHeapDown comp first len fuel a holeIndex secondChild).2.1) value).Perm
        (a.set (first + holeIndex) value) := by
  intro fuel
  induction fuel with
  | zero => intro a holeIndex secondChild hh; exact ⟨hh, List.Perm.refl _⟩
  | succ fuel ih =>
    intro a holeIndex secondChild hh
    unfold adjustHeapDown
    split
    · simp only
      split
      · rename_i r l _ _
        split
        · rename_i c hc
          have hlt : first + (if comp r l = true then 2 * (secondChild + 1) - 1
              else 2 * (secondChild + 1)) < (a.set (first + holeIndex) c).length := by
            rw [List.length_set]
            exact (List.getElem?_eq_some.mp hc).1
          have h := ih (a.set (first + holeIndex) c)
            (if comp r l = true then 2 * (secondChild + 1) - 1 else 2 * (secondChild + 1))
            (if comp r l = true then 2 * (secondChild + 1) - 1 else 2 * (secondChild + 1)) hlt
          exact ⟨h.1, h.2.trans (set_set_perm_set value a _ _ c hc hh)⟩
        · exact ⟨hh, List.Perm.refl _⟩
      · exact ⟨hh, List.Perm.refl _⟩
    · exact ⟨hh, List.Perm.refl _⟩

theorem adjustHeap_perm (comp : α → α → Bool) (a : List α) (first holeIndex len : Nat)
    (value : α) (hh : first + holeIndex < a.length) :
    (adjustHeap comp a first holeIndex len value).Perm (a.set (first + holeIndex) value) := by
  unfold adjustHeap
  have hd := adjustHeapDown_perm comp first len value len a holeIndex holeIndex hh
  generalize adjustHeapDown comp first len len a holeIndex holeIndex = r at hd
  obtain ⟨a1, hole1, sc1⟩ := r
  simp only at hd ⊢
  split
  · split
    · rename_i c hc
      have hlt : first + (2 * (sc1 + 1) - 1) < (a1.set (first + hole1) c).length := by
        rw [List.length_set]
        exact (List.getElem?_eq_some.mp hc).1
      exact ((pushHeap_perm comp first holeIndex value len _ _ hlt).trans
        (set_set_perm_set value a1 _ _ c hc hd.1)).trans hd.2
    · exact (pushHeap_perm comp first holeIndex value len _ _ hd.1).trans hd.2
  · exact (pushHeap_perm comp first holeIndex value len _ _ hd.1).trans hd.2

theorem popHeap_perm (comp : α → α → Bool) (a : List α) (first last result : Nat) :
    (popHeap comp a first last result).Perm a := by
  unfold popHeap
  split
  · rename_i value top hv ht
    have hr : result < a.length := (List.getElem?_eq_some.mp hv).1
    have hf : first + 0 < (a.set result top).length := by
      rw [List.length_set]
      exact (List.getElem?_eq_some.mp ht).1
    have h1 := adjustHeap_perm comp (a.set result top) first 0 (last - first) value hf
    have h2 := set_set_perm_set value a result first top ht hr
    rw [set_self_of_getElem? a result value hv] at h2
    exact h1.trans h2
  · exact List.Perm.refl _

theorem makeHeapLoop_perm (comp : α → α → Bool) (first len : Nat) :
    ∀ (parent : Nat) (a : List α), (makeHeapLoop comp first len parent a).Perm a := by
  intro parent
  induction parent with
  | zero =>
    intro a
    unfold makeHeapLoop
    split
    · rename_i value hv
      have hf : first + 0 < a.length := (List.getElem?_eq_some.mp hv).1
      have h := adjustHeap_perm comp a first 0 len value hf
      rw [Nat.add_zero, set_self_of_getElem? a first value hv] at h
      exact h
    · exact List.Perm.refl _
  | succ parent ih =>
    intro a
    unfold makeHeapLoop
    split
    · rename_i value hv
      have hf : first + (parent + 1) < a.length := (List.getElem?_eq_some.mp hv).1
      have h := adjustHeap_perm comp a first (parent + 1) len value hf
      rw [set_self_of_getElem? a _ value hv] at h
      exact (ih _).trans h
    · exact List.Perm.refl _

theorem makeHeap_perm (comp : α → α → Bool) (a : List α) (first last : Nat) :
    (makeHeap comp a first last).Perm a := by
  unfold makeHeap
  split
  · exact List.Perm.refl _
  · exact makeHeapLoop_perm _ _ _ _ _

theorem heapSelectLoop_perm (comp : α → α → Bool) (first middle : Nat) :
    ∀ (remaining : Nat) (a : List α) (i : Nat),
      (heapSelectLoop comp first middle remaining a i).Perm a := by
  intro remaining
  induction remaining with
  | zero => intro a i; exact List.Perm.refl _
  | succ remaining ih =>
    intro a i
    unfold heapSelectLoop
    split
    · refine (ih _ _).trans ?_
      split
      · exact popHeap_perm _ _ _ _ _
      · exact List.Perm.refl _
    · exact List.Perm.refl _

theorem sortHeap_perm (comp : α → α → Bool) (first : Nat) :
    ∀ (count : Nat) (a : List α), (sortHeap comp first count a).Perm a := by
  intro count
  induction count with
  | zero => intro a; exact List.Perm.refl _
  | succ count ih =>
    intro a
    unfold sortHeap
    split
    · exact (ih _).trans (popHeap_perm _ _ _ _ _)
    · exact List.Perm.refl _

theorem heapSortRange_perm (comp : α → α → Bool) (a : List α) (first middle last : Nat) :
    (heapSortRange comp a first middle last).Perm a := by
  unfold heapSortRange heapSelect
  exact (sortHeap_perm _ _ _ _).trans
    ((heapSelectLoop_perm _ _ _ _ _ _).trans (makeHeap_perm _ _ _ _))

theorem introsortLoop_perm (comp : α → α → Bool) :
    ∀ (depth_limit : Nat) (a : List α) (first last : Nat),
      (introsortLoop comp depth_limit a first last).Perm a := by
  intro depth_limit
  induction depth_limit with
  | zero =>
    intro a first last
    unfold introsortLoop
    split
    · exact heapSortRange_perm _ _ _ _ _
    · exact List.Perm.refl _
  | succ depth_limit ih =>
    intro a first last
    unfold introsortLoop
    split
    · have hp := unguardedPartitionPivot_perm comp a first last
      generalize unguardedPartitionPivot comp a first last = r at hp
      obtain ⟨a1, cut⟩ := r
      exact ((ih _ _ _).trans (ih _ _ _)).trans hp
    · exact List.Perm.refl _

theorem linearInsertRev_perm (comp : α → α → Bool) (val : α) :
    ∀ l : List α, (linearInsertRev comp val l).Perm (val :: l) := by
  intro l
  induction l with
  | nil => exact List.Perm.refl _
  | cons x xs ih =>
    unfold linearInsertRev
    split
    · exact (ih.cons x).trans (List.Perm.swap _ _ _)
    · exact List.Perm.refl _

theorem unguardedLinearInsert_perm (comp : α → α → Bool) (before : List α) (val : α) :
    (unguardedLinearInsert comp before val).Perm (before ++ [val]) := by
  unfold unguardedLinearInsert
  refine (List.reverse_perm _).trans ((linearInsertRev_perm comp val _).trans ?_)
  exact ((List.reverse_perm before).cons val).trans (List.perm_append_singleton val before).symm

theorem insertionStep_perm (comp : α → α → Bool) (before : List α) (val : α) :
    (insertionStep comp before val).Perm (before ++ [val]) := by
  unfold insertionStep
  split
  · exact List.Perm.refl _
  · split
    · exact (List.perm_append_singleton _ _).symm
    · exact unguardedLinearInsert_perm _ _ _

theorem foldl_insert_perm (step : List α → α → List α)
    (hstep : ∀ before val, (step before val).Perm (before ++ [val])) :
    ∀ (rest before : List α), (rest.foldl step before).Perm (before ++ rest) := by
  intro rest
  induction rest with
  | nil => intro before; simp
  | cons x xs ih =>
    intro before
    rw [List.foldl_cons]
    refine (ih _).trans ?_
    have := (hstep before x).append_right xs
    simpa using this

theorem insertionSort_perm (comp : α → α → Bool) (l : List α) :
    (insertionSort comp l).Perm l := by
  cases l with
  | nil => exact List.Perm.refl _
  | cons x xs =>
    unfold insertionSort
    exact foldl_insert_perm _ (insertionStep_perm comp) xs [x]

theorem finalInsertionSort_perm (comp : α → α → Bool) (a : List α) :
    (finalInsertionSort comp a).Perm a := by
  unfold finalInsertionSort
  split
  · unfold unguardedInsertionSort
    refine (foldl_insert_perm _ (unguardedLinearInsert_perm comp) _ _).trans ?_
    have := (insertionSort_perm comp (a.take 16)).append_right (a.drop 16)
    simpa using this
  · exact insertionSort_perm _ _

theorem gnuSort_perm (comp : α → α → Bool) (a : List α) : (gnuSort comp a).Perm a := by
  unfold gnuSort
  split
  · exact List.Perm.refl _
  · exact (finalInsertionSort_perm _ _).trans (introsortLoop_perm _ _ _ _ _)

theorem comp_asymm {comp : α → α → Bool} (h : IsStrictWeakOrdering comp) (a b : α)
    (hab : comp a b = true) : comp b a = false := by
  cases hba : comp b a with
  | false => rfl
  | true =>
    have := h.2.1 a b a hab hba
    rw [h.1 a] at this
    exact absurd this (by simp)

theorem linearInsertRev_sorted {comp : α → α → Bool} (h : IsStrictWeakOrdering comp) (val : α) :
    ∀ l : List α, l.Pairwise (fun a b => comp a b = false) →
      (linearInsertRev comp val l).Pairwise (fun a b => comp a b = false) := by
  intro l
  induction l with
  | nil => intro _; simp [linearInsertRev]
  | cons x xs ih =>
    intro hl
    rw [List.pairwise_cons] at hl
    unfold linearInsertRev
    split
    · rename_i hvx
      rw [List.pairwise_cons]
      refine ⟨?_, ih hl.2⟩
      intro y hy
      rcases List.mem_cons.mp ((linearInsertRev_perm comp val xs).mem_iff.mp hy) with hy | hy
      · rw [hy]; exact comp_asymm h _ _ hvx
      · exact hl.1 y hy
    · rename_i hvx
      have hvx' : comp val x = false := by simpa using hvx
      rw [List.pairwise_cons]
      refine ⟨?_, List.pairwise_cons.mpr hl⟩
      intro y hy
      rcases List.mem_cons.mp hy with hy | hy
      · rw [hy]; exact hvx'
      · exact h.2.2 _ _ _ hvx' (hl.1 y hy)

theorem unguardedLinearInsert_sorted {comp : α → α → Bool} (h : IsStrictWeakOrdering comp)
    (before : List α) (val : α) (hb : SortedBy comp before) :
    SortedBy comp (unguardedLinearInsert comp before val) := by
  unfold unguardedLinearInsert SortedBy
  rw [List.pairwise_reverse]
  apply linearInsertRev_sorted h
  rw [List.pairwise_reverse]
  exact hb

theorem insertionStep_sorted {comp : α → α → Bool} (h : IsStrictWeakOrdering comp)
    (before : List α) (val : α) (hb : SortedBy comp before) :
    SortedBy comp (insertionStep comp before val) := by
  unfold insertionStep
  split
  · simp [SortedBy]
  · rename_i f fs
    split
    · rename_i hvf
      unfold SortedBy at hb ⊢
      rw [List.pairwise_cons]
      refine ⟨?_, hb⟩
      have hfv : comp f val = false := comp_asymm h _ _ hvf
      intro y hy
      rcases List.mem_cons.mp hy with hy | hy
      · rw [hy]; exact hfv
      · exact h.2.2 _ _ _ ((List.pairwise_cons.mp hb).1 y hy) hfv
    · exact unguardedLinearInsert_sorted h _ _ hb

theorem foldl_insert_sorted {comp : α → α → Bool} (step : List α → α → List α)
    (hstep : ∀ before val, SortedBy comp before → SortedBy comp (step before val)) :
    ∀ (rest before : List α), SortedBy comp before → SortedBy comp (rest.foldl step before) := by
  intro rest
  induction rest with
  | nil => intro before hb; exact hb
  | cons x xs ih => intro before hb; exact ih _ (hstep _ _ hb)

theorem insertionSort_sorted {comp : α → α → Bool} (h : IsStrictWeakOrdering comp)
    (l : List α) : SortedBy comp (insertionSort comp l) := by
  cases l with
  | nil => simp [insertionSort, SortedBy]
  | cons x xs =>
    unfold insertionSort
    exact foldl_insert_sorted _ (insertionStep_sorted h) xs [x] (by simp [SortedBy])

theorem finalInsertionSort_sorted {comp : α → α → Bool} (h : IsStrictWeakOrdering comp)
    (a : List α) : SortedBy comp (finalInsertionSort comp a) := by
  unfold finalInsertionSort
  split
  · exact foldl_insert_sorted _ (unguardedLinearInsert_sorted h) _ _ (insertionSort_sorted h _)
  · exact insertionSort_sorted h _

theorem gnuSort_sorted {comp : α → α → Bool} (h : IsStrictWeakOrdering comp) (a : List α) :
    SortedBy comp (gnuSort comp a) := by
  unfold gnuSort
  split
  · simp [SortedBy]
  · exact finalInsertionSort_sorted h _

/-- The model of the GNU `std::sort` meets the contract of `std::sort`. -/
theorem gnuSort_contract : StdSortContract (gnuSort : (α → α → Bool) → List α → List α) :=
  fun comp l h => ⟨gnuSort_perm comp l, gnuSort_sorted h l⟩

end GnuProofs

/-! ## Sorting the word counts -/

theorem countGreater_strictWeak : IsStrictWeakOrdering CountWords.countGreater := by
  refine ⟨?_, ?_, ?_⟩
  · intro a; simp [CountWords.countGreater]
  · intro a b c hab hbc
    simp only [CountWords.countGreater, gt_iff_lt, decide_eq_true_eq] at hab hbc ⊢
    omega
  · intro a b c hab hbc
    simp only [CountWords.countGreater, gt_iff_lt, decide_eq_false_iff_not, not_lt] at hab hbc ⊢
    omega

theorem sortWords_countGreater_eq : SortWords.countGreater = CountWords.countGreater := rfl

theorem sortWords_transformLines_eq (stdSort : SortRoutine) :
    SortWords.transformLines stdSort = CountWords.transformLines stdSort := rfl

theorem sortWords_transform_eq (stdSort : SortRoutine) :
    SortWords.transform stdSort = CountWords.transform stdSort := rfl

theorem sortWords_write_eq :
    SortWords.writeSortedWordCountsToFile = CountWords.writeSortedWordCountsToFile := rfl

theorem sortWords_read_eq :
    SortWords.readWordCountsFromFile = CountWords.readWordCountsFromFile := rfl

theorem sortedBy_countGreater_iff (l : List WordCount) :
    SortedBy CountWords.countGreater l ↔ l.Pairwise (fun a b => a.2 ≥ b.2) := by
  unfold SortedBy
  constructor <;> intro h <;> refine h.imp ?_ <;> intro a b hab
  · simpa [CountWords.countGreater] using hab
  · simpa [CountWords.countGreater] using hab

/-- What the three steps of the tool do to the lines of a file, for a sorting routine that meets
the contract of `std::sort`. -/
theorem transformLines_spec (stdSort : SortRoutine) (hsort : StdSortContract stdSort)
    (lines : List (List Char)) :
    (CountWords.transformLines stdSort lines).Perm (CountWords.readWordCounts lines) ∧
    (CountWords.transformLines stdSort lines).Pairwise (fun a b => a.2 ≥ b.2) ∧
    CountWords.readWordCountsFromFile
        (CountWords.writeSortedWordCountsToFile (CountWords.transformLines stdSort lines))
      = CountWords.transformLines stdSort lines := by
  have h := hsort CountWords.countGreater (CountWords.readWordCounts lines) countGreater_strictWeak
  have hperm : (CountWords.transformLines stdSort lines).Perm (CountWords.readWordCounts lines) :=
    h.1
  refine ⟨hperm, (sortedBy_countGreater_iff _).mp h.2, ?_⟩
  apply read_written
  intro e he
  exact retained_valid lines e (hperm.mem_iff.mp he)

/-- C1: with a sorting routine that meets the contract of `std::sort`, the entries the tool
writes are a rearrangement of exactly the entries the parser kept, every count is at least the
count that follows it, and the file written holds exactly these entries, one per line. This
holds for `count_words.cpp` and for `sort_words.cpp`. -/
theorem output_sorted_rearrangement (stdSort : SortRoutine) (hsort : StdSortContract stdSort)
    (lines : List (List Char)) :
    ((CountWords.transformLines stdSort lines).Perm (CountWords.readWordCounts lines) ∧
      (CountWords.transformLines stdSort lines).Pairwise (fun a b => a.2 ≥ b.2) ∧
      CountWords.readWordCountsFromFile
          (CountWords.writeSortedWordCountsToFile (CountWords.transformLines stdSort lines))
        = CountWords.transformLines stdSort lines) ∧
    ((SortWords.transformLines stdSort lines).Perm (SortWords.readWordCounts lines) ∧
      (SortWords.transformLines stdSort lines).Pairwise (fun a b => a.2 ≥ b.2) ∧
      SortWords.readWordCountsFromFile
          (SortWords.writeSortedWordCountsToFile (SortWords.transformLines stdSort lines))
        = SortWords.transformLines stdSort lines) :=
  ⟨transformLines_spec stdSort hsort lines, transformLines_spec stdSort hsort lines⟩

/-- C1 at the example of the specification, with the GNU sort. -/
theorem output_sorted_rearrangement_witness :
    StdSortContract (gnuSort : SortRoutine) ∧
    (((CountWords.transformLines gnuSort exampleLines).Perm
        (CountWords.readWordCounts exampleLines) ∧
      (CountWords.transformLines gnuSort exampleLines).Pairwise (fun a b => a.2 ≥ b.2) ∧
      CountWords.readWordCountsFromFile
          (CountWords.writeSortedWordCountsToFile (CountWords.transformLines gnuSort exampleLines))
        = CountWords.transformLines gnuSort exampleLines) ∧
    ((SortWords.transformLines gnuSort exampleLines).Perm
        (SortWords.readWordCounts exampleLines) ∧
      (SortWords.transformLines gnuSort exampleLines).Pairwise (fun a b => a.2 ≥ b.2) ∧
      SortWords.readWordCountsFromFile
          (SortWords.writeSortedWordCountsToFile (SortWords.transformLines gnuSort exampleLines))
        = SortWords.transformLines gnuSort exampleLines)) :=
  ⟨gnuSort_contract, output_sorted_rearrangement gnuSort gnuSort_contract exampleLines⟩

/-! ### Ties -/

theorem filter_linearInsertRev (p : WordCount → Bool) (val : WordCount)
    (hp : ∀ x, CountWords.countGreater val x = true → ¬ (p val = true ∧ p x = true)) :
    ∀ l : List WordCount,
      (linearInsertRev CountWords.countGreater val l).filter p = (val :: l).filter p := by
  intro l
  induction l with
  | nil => rfl
  | cons x xs ih =>
    unfold linearInsertRev
    split
    · rename_i hvx
      have := hp x hvx
      rw [List.filter_cons, ih]
      by_cases hpv : p val = true
      · have hpx : ¬ p x = true := fun h => this ⟨hpv, h⟩
        simp [List.filter_cons, hpv, hpx]
      · simp [List.filter_cons, hpv]
    · rfl

theorem countFilter_exclusive (c : Int) (val x : WordCount)
    (h : CountWords.countGreater val x = true) :
    ¬ ((fun e : WordCount => decide (e.2 = c)) val = true ∧
       (fun e : WordCount => decide (e.2 = c)) x = true) := by
  simp only [CountWords.countGreater, gt_iff_lt, decide_eq_true_eq] at h ⊢
  omega

theorem filter_unguardedLinearInsert (c : Int) (before : List WordCount) (val : WordCount) :
    (unguardedLinearInsert CountWords.countGreater before val).filter
        (fun e => decide (e.2 = c))
      = (before ++ [val]).filter (fun e => decide (e.2 = c)) := by
  unfold unguardedLinearInsert
  rw [List.filter_reverse,
    filter_linearInsertRev _ val (fun x hx => countFilter_exclusive c val x hx),
    ← List.filter_reverse, List.reverse_cons, List.reverse_reverse]

theorem filter_insertionStep (c : Int) (before : List WordCount) (val : WordCount)
    (hb : SortedBy CountWords.countGreater before) :
    (insertionStep CountWords.countGreater before val).filter (fun e => decide (e.2 = c))
      = (before ++ [val]).filter (fun e => decide (e.2 = c)) := by
  unfold insertionStep
  split
  · rfl
  · rename_i f fs
    split
    · rename_i hvf
      have hs := (sortedBy_countGreater_iff _).mp hb
      rw [List.pairwise_cons] at hs
      simp only [CountWords.countGreater, gt_iff_lt, decide_eq_true_eq] at hvf
      by_cases hc : val.2 = c
      · have hnone : (f :: fs).filter (fun e => decide (e.2 = c)) = [] := by
          rw [List.filter_eq_nil_iff]
          intro x hx
          simp only [decide_eq_true_eq]
          rcases List.mem_cons.mp hx with h | h
          · rw [h]; omega
          · have := hs.1 x h
            omega
        rw [List.filter_append, hnone, List.filter_cons, hnone]
        simp [hc]
      · rw [List.filter_append, List.filter_cons]
        simp [hc]
    · exact filter_unguardedLinearInsert c _ _

theorem filter_foldl_insertionStep (c : Int) :
    ∀ (rest before : List WordCount), SortedBy CountWords.countGreater before →
      (rest.foldl (insertionStep CountWords.countGreater) before).filter
          (fun e => decide (e.2 = c))
        = (before ++ rest).filter (fun e => decide (e.2 = c)) := by
  intro rest
  induction rest with
  | nil => intro before _; simp
  | cons x xs ih =>
    intro before hb
    rw [List.foldl_cons, ih _ (insertionStep_sorted countGreater_strictWeak before x hb),
      List.filter_append, filter_insertionStep c before x hb, ← List.filter_append,
      List.append_assoc, List.singleton_append]

/-- The insertion sort of the GNU library keeps the input order of equal counts. -/
theorem insertionSort_keepsTieOrder (l : List WordCount) :
    KeepsTieOrder l (insertionSort CountWords.countGreater l) := by
  intro c
  cases l with
  | nil => rfl
  | cons x xs =>
    unfold insertionSort
    rw [filter_foldl_insertionStep c xs [x] (by simp [SortedBy])]
    rfl

theorem introsortLoop_short (comp : WordCount → WordCount → Bool) (depth : Nat)
    (a : List WordCount) (ha : a.length ≤ 16) :
    introsortLoop comp depth a 0 a.length = a := by
  have hno : ¬ (a.length - 0 > 16) := by omega
  cases depth with
  | zero => unfold introsortLoop; rw [if_neg hno]
  | succ d => unfold introsortLoop; rw [if_neg hno]

/-- On at most sixteen elements the GNU sort is its insertion sort. -/
theorem gnuSort_short (comp : WordCount → WordCount → Bool) (a : List WordCount)
    (ha : a.length ≤ 16) : gnuSort comp a = insertionSort comp a := by
  unfold gnuSort
  split
  · rfl
  · rename_i x xs
    rw [introsortLoop_short comp _ _ ha]
    unfold finalInsertionSort
    have hno : ¬ ((x :: xs).length > 16) := by omega
    rw [if_neg hno]

theorem mirroredSort_contract : StdSortContract mirroredSort := by
  intro comp l h
  have hg := gnuSort_contract comp l.reverse h
  exact ⟨hg.1.trans (List.reverse_perm l), hg.2⟩

/-- C2, as the code has it with the GNU library: the sort keeps the input order of entries with
equal count whenever the parser kept at most sixteen entries. -/
theorem tie_order_kept_up_to_sixteen (lines : List (List Char))
    (h : (CountWords.readWordCounts lines).length ≤ 16) :
    KeepsTieOrder (CountWords.readWordCounts lines) (CountWords.transformLines gnuSort lines) ∧
    KeepsTieOrder (SortWords.readWordCounts lines) (SortWords.transformLines gnuSort lines) := by
  have key : KeepsTieOrder (CountWords.readWordCounts lines)
      (CountWords.transformLines gnuSort lines) := by
    unfold CountWords.transformLines CountWords.sortWordCountsDescending
    rw [gnuSort_short _ _ h]
    exact insertionSort_keepsTieOrder _
  exact ⟨key, key⟩

/-- C2 at the example of the specification: the malformed line is dropped, the two entries of
count 9 keep their order, and the output is exactly `dog 9`, `fox 9`, `cat 3`. -/
theorem tie_order_kept_example :
    (CountWords.readWordCounts exampleLines).length ≤ 16 ∧
    (KeepsTieOrder (CountWords.readWordCounts exampleLines)
        (CountWords.transformLines gnuSort exampleLines) ∧
      KeepsTieOrder (SortWords.readWordCounts exampleLines)
        (SortWords.transformLines gnuSort exampleLines)) ∧
    CountWords.transformLines gnuSort exampleLines
      = [("dog".toList, 9), ("fox".toList, 9), ("cat".toList, 3)] ∧
    CountWords.transform gnuSort "cat 3\ndog 9\nbird notanumber\nfox 9\n".toList
      = "dog 9\nfox 9\ncat 3\n".toList :=
  ⟨by decide, tie_order_kept_up_to_sixteen exampleLines (by decide), by decide, by decide⟩

/-- C2 fails as stated: on seventeen lines of equal count the GNU sort returns the entries in
the order i q p o n m l k j a h g f e d c b, not in the order of the input; and a routine that
meets the contract of `std::sort` may return `fox 9` before `dog 9` on the example of the
specification. -/
theorem tie_order_counterexample :
    (¬ KeepsTieOrder (CountWords.readWordCounts seventeenTies)
        (CountWords.transformLines gnuSort seventeenTies)) ∧
    (CountWords.transformLines gnuSort seventeenTies).map (fun e => e.1)
      = ["i", "q", "p", "o", "n", "m", "l", "k", "j", "a", "h", "g", "f", "e", "d", "c",
          "b"].map String.toList ∧
    (SortWords.transformLines gnuSort seventeenTies).map (fun e => e.1)
      = ["i", "q", "p", "o", "n", "m", "l", "k", "j", "a", "h", "g", "f", "e", "d", "c",
          "b"].map String.toList ∧
    (StdSortContract mirroredSort ∧
      CountWords.transformLines mirroredSort exampleLines
        = [("fox".toList, 9), ("dog".toList, 9), ("cat".toList, 3)]) := by
  refine ⟨?_, by decide, by decide, mirroredSort_contract, by decide⟩
  intro h
  have h1 := h 1
  revert h1
  decide

/-! ### Sorting a sorted file again -/

theorem strictly_descending_unique (es out : List WordCount)
    (hes : es.Pairwise (fun a b => a.2 > b.2)) (hperm : out.Perm es)
    (hsorted : out.Pairwise (fun a b => a.2 ≥ b.2)) : out = es := by
  have hne : es.Pairwise (fun a b => a.2 ≠ b.2) := hes.imp (fun h => by omega)
  have hinj : ∀ a ∈ es, ∀ b ∈ es, a.2 = b.2 → a = b := by
    intro a ha b hb hab
    by_contra hne'
    have hsymm : Symmetric (fun a b : WordCount => a.2 ≠ b.2) := fun x y hxy => Ne.symm hxy
    exact (List.Pairwise.forall hsymm hne ha hb hne') hab
  refine List.Perm.eq_of_sorted ?_ hsorted (hes.imp (fun h => by omega)) hperm
  intro a b ha hb hab hba
  exact hinj a (hperm.mem_iff.mp ha) b hb (by omega)

theorem linearInsertRev_of_head (comp : WordCount → WordCount → Bool) (val : WordCount)
    (l : List WordCount) (h : ∀ x, l.head? = some x → comp val x = false) :
    linearInsertRev comp val l = val :: l := by
  cases l with
  | nil => rfl
  | cons x xs =>
    unfold linearInsertRev
    have hx := h x rfl
    simp [hx]

theorem insertionStep_of_sorted (before : List WordCount) (val : WordCount)
    (hne : before ≠ []) (hs : SortedBy CountWords.countGreater (before ++ [val])) :
    insertionStep CountWords.countGreater before val = before ++ [val] := by
  unfold SortedBy at hs
  rw [List.pairwise_append] at hs
  have hall : ∀ x ∈ before, CountWords.countGreater val x = false :=
    fun x hx => hs.2.2 x hx val (List.mem_singleton_self _)
  cases before with
  | nil => exact absurd rfl hne
  | cons f fs =>
    unfold insertionStep
    dsimp only
    have hf := hall f (List.mem_cons_self _ _)
    simp only [hf, Bool.false_eq_true, ↓reduceIte]
    unfold unguardedLinearInsert
    rw [linearInsertRev_of_head]
    · simp
    · intro x hx
      apply hall
      have hmem := List.mem_of_mem_head? hx
      exact List.mem_reverse.mp hmem

theorem foldl_insertionStep_of_sorted :
    ∀ (rest before : List WordCount), before ≠ [] →
      SortedBy CountWords.countGreater (before ++ rest) →
      rest.foldl (insertionStep CountWords.countGreater) before = before ++ rest := by
  intro rest
  induction rest with
  | nil => intro before _ _; simp
  | cons x xs ih =>
    intro before hne hs
    have hs' : SortedBy CountWords.countGreater ((before ++ [x]) ++ xs) := by
      simpa using hs
    have hpre : SortedBy CountWords.countGreater (before ++ [x]) := by
      unfold SortedBy at hs' ⊢
      exact (List.pairwise_append.mp hs').1
    rw [List.foldl_cons, insertionStep_of_sorted before x hne hpre, ih _ (by simp) hs']
    simp

/-- On a range that is sorted already, of at most sixteen elements, the GNU sort changes
nothing. -/
theorem gnuSort_of_sorted (es : List WordCount) (hlen : es.length ≤ 16)
    (hs : es.Pairwise (fun a b => a.2 ≥ b.2)) : gnuSort CountWords.countGreater es = es := by
  rw [gnuSort_short _ _ hlen]
  cases es with
  | nil => rfl
  | cons x xs =>
    unfold insertionSort
    exact foldl_insertionStep_of_sorted xs [x] (by simp) ((sortedBy_countGreater_iff _).mpr hs)

/-- C6, as the code has it: a file as the writer emits it (every line a non-empty word without
whitespace, one space, the count printed in decimal without leading zeros or plus sign, a
newline; counts that fit the `int`), sorted descending by count, comes out of the resort
transform of `sort_words.cpp` byte for byte as it went in, provided that no two lines share a
count, or that the sorting routine is the GNU sort and the file has at most sixteen lines. -/
theorem resort_identity_on_sorted_file (stdSort : SortRoutine)
    (hsort : StdSortContract stdSort) (es : List WordCount) (hvalid : ∀ e ∈ es, ValidEntry e)
    (hdesc : es.Pairwise (fun a b => a.2 ≥ b.2))
    (hties : es.Pairwise (fun a b => a.2 > b.2) ∨ (stdSort = gnuSort ∧ es.length ≤ 16)) :
    SortWords.transform stdSort (SortWords.writeSortedWordCountsToFile es)
      = SortWords.writeSortedWordCountsToFile es := by
  rw [sortWords_transform_eq, sortWords_write_eq]
  unfold CountWords.transform
  rw [read_written es hvalid]
  unfold CountWords.sortWordCountsDescending
  rcases hties with hstrict | ⟨hgnu, hlen⟩
  · have h := hsort CountWords.countGreater es countGreater_strictWeak
    have hs := (sortedBy_countGreater_iff _).mp h.2
    rw [strictly_descending_unique es _ hstrict h.1 hs]
  · rw [hgnu, gnuSort_of_sorted es hlen hdesc]

/-- C6 at the file `dog 9`, `fox 9`, `cat 3`, of three lines of which two share a count, with
the GNU sort. -/
theorem resort_identity_witness :
    StdSortContract (gnuSort : SortRoutine) ∧
    (∀ e ∈ [("dog".toList, (9 : Int)), ("fox".toList, (9 : Int)), ("cat".toList, (3 : Int))],
      ValidEntry e) ∧
    [("dog".toList, (9 : Int)), ("fox".toList, (9 : Int)),
      ("cat".toList, (3 : Int))].Pairwise (fun a b => a.2 ≥ b.2) ∧
    SortWords.writeSortedWordCountsToFile
        [("dog".toList, 9), ("fox".toList, 9), ("cat".toList, 3)]
      = "dog 9\nfox 9\ncat 3\n".toList ∧
    SortWords.transform gnuSort
        (SortWords.writeSortedWordCountsToFile
          [("dog".toList, 9), ("fox".toList, 9), ("cat".toList, 3)])
      = SortWords.writeSortedWordCountsToFile
          [("dog".toList, 9), ("fox".toList, 9), ("cat".toList, 3)] :=
  ⟨gnuSort_contract, by unfold ValidEntry; decide, by decide, by decide,
    resort_identity_on_sorted_file gnuSort gnuSort_contract
      [("dog".toList, 9), ("fox".toList, 9), ("cat".toList, 3)]
      (by unfold ValidEntry; decide) (by decide) (Or.inr ⟨rfl, by decide⟩)⟩

/-- C6 fails as stated. The file of seventeen lines `a 1` to `q 1` is in the word-count format
and sorted descending, and the resort transform with the GNU sort writes its lines in another
order. The file `a 007` is in the format and sorted as well, and the transform writes `a 7`
whatever the sorting routine. -/
theorem resort_counterexample :
    (InWordCountFormat seventeenTiesContent = true ∧ CountsDescending seventeenTiesContent ∧
      SortWords.transform gnuSort seventeenTiesContent ≠ seventeenTiesContent) ∧
    (InWordCountFormat "a 007\n".toList = true ∧ CountsDescending "a 007\n".toList ∧
      SortWords.transform gnuSort "a 007\n".toList = "a 7\n".toList ∧
      SortWords.transform gnuSort "a 007\n".toList ≠ "a 007\n".toList) := by
  refine ⟨⟨by decide, by unfold CountsDescending; decide, by decide⟩,
    ⟨by decide, by unfold CountsDescending; decide, by decide, by decide⟩⟩

/-! ### The range of the counts -/

/-- C10, as the code has it: every entry the parser keeps, and so every entry written, has a
count that fits the 32-bit `int`, between -2147483648 and 2147483647; negative counts are
kept. -/
theorem count_within_int_range (stdSort : SortRoutine) (hsort : StdSortContract stdSort)
    (lines : List (List Char)) :
    (∀ e ∈ CountWords.readWordCounts lines, INT_MIN ≤ e.2 ∧ e.2 ≤ INT_MAX) ∧
    (∀ e ∈ CountWords.transformLines stdSort lines, INT_MIN ≤ e.2 ∧ e.2 ≤ INT_MAX) ∧
    (∀ e ∈ SortWords.readWordCounts lines, INT_MIN ≤ e.2 ∧ e.2 ≤ INT_MAX) ∧
    (∀ e ∈ SortWords.transformLines stdSort lines, INT_MIN ≤ e.2 ∧ e.2 ≤ INT_MAX) := by
  have h1 : ∀ e ∈ CountWords.readWordCounts lines, INT_MIN ≤ e.2 ∧ e.2 ≤ INT_MAX :=
    fun e he => (retained_valid lines e he).2.2
  have h2 : ∀ e ∈ CountWords.transformLines stdSort lines, INT_MIN ≤ e.2 ∧ e.2 ≤ INT_MAX :=
    fun e he => h1 e ((transformLines_spec stdSort hsort lines).1.mem_iff.mp he)
  exact ⟨h1, h2, h1, h2⟩

/-- C10 at the lines `cat -5`, `dog 9`, with the GNU sort. -/
theorem count_within_int_range_witness :
    StdSortContract (gnuSort : SortRoutine) ∧
    ((∀ e ∈ CountWords.readWordCounts ["cat -5".toList, "dog 9".toList],
        INT_MIN ≤ e.2 ∧ e.2 ≤ INT_MAX) ∧
    (∀ e ∈ CountWords.transformLines gnuSort ["cat -5".toList, "dog 9".toList],
        INT_MIN ≤ e.2 ∧ e.2 ≤ INT_MAX) ∧
    (∀ e ∈ SortWords.readWordCounts ["cat -5".toList, "dog 9".toList],
        INT_MIN ≤ e.2 ∧ e.2 ≤ INT_MAX) ∧
    (∀ e ∈ SortWords.transformLines gnuSort ["cat -5".toList, "dog 9".toList],
        INT_MIN ≤ e.2 ∧ e.2 ≤ INT_MAX)) :=
  ⟨gnuSort_contract,
    count_within_int_range gnuSort gnuSort_contract ["cat -5".toList, "dog 9".toList]⟩

/-- C10 fails as stated: the line `cat -5` is kept with the count -5, which is negative, and is
written as `cat -5`. -/
theorem negative_count_counterexample :
    CountWords.retains "cat -5".toList = true ∧
    CountWords.extractWordCount "cat -5".toList = ("cat".toList, -5) ∧
    SortWords.extractWordCountFromLine "cat -5".toList = ("cat".toList, -5) ∧
    ¬ ((CountWords.extractWordCount "cat -5".toList).2 ≥ 0) ∧
    CountWords.transform gnuSort "cat -5\n".toList = "cat -5\n".toList := by
  decide

/-! ## The directory walk -/

theorem lexicallyRelative_append (root x : Path) : lexicallyRelative (root ++ x) root = x := by
  induction root with
  | nil => cases x <;> rfl
  | cons r rs ih =>
    rw [List.cons_append]
    unfold lexicallyRelative
    rw [if_pos rfl, ih]

theorem extension_entryPath (inputDirectory : Path) (e : DirEntry) :
    extension (entryPath inputDirectory e) = fileExtension e.name := by
  unfold extension entryPath
  rw [← List.append_assoc, List.getLast?_append]
  rfl

theorem isTextFile_eq (inputDirectory : Path) (e : DirEntry) :
    isTextFile inputDirectory e
      = (e.isRegularFile && fileExtension e.name == ['.', 't', 'x', 't']) := by
  unfold isTextFile
  rw [extension_entryPath]

theorem lexicallyRelative_entryPath (inputDirectory : Path) (e : DirEntry) :
    lexicallyRelative (entryPath inputDirectory e) inputDirectory = e.directory ++ [e.name] := by
  unfold entryPath
  exact lexicallyRelative_append _ _

/-- Without symbolic links, `fs::relative` gives the path of an entry below the walked
directory. -/
theorem relative_entryPath (env : Env) (hlinks : ∀ p, env.weaklyCanonical p = p)
    (inputDirectory : Path) (e : DirEntry) :
    relative env (entryPath inputDirectory e) inputDirectory = e.directory ++ [e.name] := by
  unfold relative
  rw [hlinks, hlinks]
  exact lexicallyRelative_entryPath _ _

theorem matchedEntries_cons (e : DirEntry) (tree : List DirEntry) (inputDirectory : Path) :
    matchedEntries (e :: tree)
      = if isTextFile inputDirectory e then e :: matchedEntries tree else matchedEntries tree := by
  rw [isTextFile_eq]
  unfold matchedEntries
  rw [List.filter_cons]

/-- The state of `clean_dataset.cpp` after the walk, for any environment: every matched entry
adds its size and its measured time, whether or not its streams open. -/
theorem cleanDataset_walk_statistics (env : Env) (inputDirectory outputDirectory : Path) :
    ∀ (tree : List DirEntry) (s : CleanDataset.State),
      (CleanDataset.processAllFilesInDirectory env inputDirectory outputDirectory tree s).sizes_
        = s.sizes_ ++ (matchedEntries tree).map (fun e => sizeMiB e.content) ∧
      (CleanDataset.processAllFilesInDirectory env inputDirectory outputDirectory tree s).times_
        = s.times_ ++
          (matchedEntries tree).map (fun e => env.elapsed (entryPath inputDirectory e)) ∧
      (CleanDataset.processAllFilesInDirectory env inputDirectory outputDirectory tree s).total_Size
        = s.total_Size + ((matchedEntries tree).map (fun e => sizeMiB e.content)).sum := by
  intro tree
  induction tree with
  | nil => intro s; simp [CleanDataset.processAllFilesInDirectory, matchedEntries]
  | cons e tree ih =>
    intro s
    unfold CleanDataset.processAllFilesInDirectory at ih ⊢
    rw [List.foldl_cons, matchedEntries_cons e tree inputDirectory]
    by_cases hm : isTextFile inputDirectory e = true
    · rw [if_pos hm, if_pos hm]
      obtain ⟨h1, h2, h3⟩ := ih (CleanDataset.processSingleFile env (entryPath inputDirectory e)
        e.content
        (outputDirectory ++ relative env (entryPath inputDirectory e) inputDirectory) s)
      dsimp only at h1 h2 h3 ⊢
      rw [h1, h2, h3]
      simp [CleanDataset.processSingleFile, add_assoc]
    · rw [if_neg hm, if_neg hm]
      exact ih s

/-- The files `clean_dataset.cpp` creates when there is no symbolic link and every output
stream opens. -/
theorem cleanDataset_walk_files (env : Env) (hlinks : ∀ p, env.weaklyCanonical p = p)
    (hout : ∀ p, env.outputOpens p = true) (inputDirectory outputDirectory : Path) :
    ∀ (tree : List DirEntry) (s : CleanDataset.State),
      (CleanDataset.processAllFilesInDirectory env inputDirectory outputDirectory tree s).files
        = s.files ++ (matchedEntries tree).map (fun e =>
            (outputDirectory ++ (e.directory ++ [e.name]),
              if env.inputOpens (entryPath inputDirectory e) = true
              then CleanDataset.cleanseContent e.content else [])) := by
  intro tree
  induction tree with
  | nil => intro s; simp [CleanDataset.processAllFilesInDirectory, matchedEntries]
  | cons e tree ih =>
    intro s
    unfold CleanDataset.processAllFilesInDirectory at ih ⊢
    rw [List.foldl_cons, matchedEntries_cons e tree inputDirectory]
    by_cases hm : isTextFile inputDirectory e = true
    · rw [if_pos hm, if_pos hm]
      dsimp only
      rw [ih, relative_entryPath env hlinks]
      cases hin : env.inputOpens (entryPath inputDirectory e) <;>
        simp [CleanDataset.processSingleFile, CleanDataset.processFile,
          CleanDataset.openFiles, hout, hin]
    · rw [if_neg hm, if_neg hm]
      exact ih s

/-- The state of `count_words.cpp` after the walk, for any environment: every matched entry
adds its size and the quotient of its number of entries by its measured time. -/
theorem countWords_walk (stdSort : SortRoutine) (env : Env)
    (Input_Directory Output_Directory : Path) :
    ∀ (tree : List DirEntry) (s : WordState),
      (CountWords.processDirectoryAndCalculateThroughput stdSort env Input_Directory
          Output_Directory tree s).throughputValues
        = s.throughputValues ++ (matchedEntries tree).map (fun e =>
            floatDiv
              ((CountWords.entriesOf stdSort env (entryPath Input_Directory e) e.content).length
                : ℚ)
              (env.elapsed (entryPath Input_Directory e))) ∧
      (CountWords.processDirectoryAndCalculateThroughput stdSort env Input_Directory
          Output_Directory tree s).fileSizes
        = s.fileSizes ++ (matchedEntries tree).map (fun e => sizeMiB e.content) := by
  intro tree
  induction tree with
  | nil => intro s; simp [CountWords.processDirectoryAndCalculateThroughput, matchedEntries]
  | cons e tree ih =>
    intro s
    unfold CountWords.processDirectoryAndCalculateThroughput at ih ⊢
    rw [List.foldl_cons, matchedEntries_cons e tree Input_Directory]
    by_cases hm : isTextFile Input_Directory e = true
    · rw [if_pos hm, if_pos hm]
      obtain ⟨h1, h2⟩ := ih (CountWords.processEntry stdSort env (entryPath Input_Directory e)
        e.content
        (Output_Directory ++ relative env (entryPath Input_Directory e) Input_Directory) s)
      dsimp only at h1 h2 ⊢
      rw [h1, h2]
      simp [CountWords.processEntry, CountWords.entriesOf]
    · rw [if_neg hm, if_neg hm]
      exact ih s

/-- The files `count_words.cpp` creates when there is no symbolic link and every output stream
opens. -/
theorem countWords_walk_files (stdSort : SortRoutine) (env : Env)
    (hlinks : ∀ p, env.weaklyCanonical p = p) (hout : ∀ p, env.outputOpens p = true)
    (Input_Directory Output_Directory : Path) :
    ∀ (tree : List DirEntry) (s : WordState),
      (CountWords.processDirectoryAndCalculateThroughput stdSort env Input_Directory
          Output_Directory tree s).files
        = s.files ++ (matchedEntries tree).map (fun e =>
            (Output_Directory ++ (e.directory ++ [e.name]),
              CountWords.writeSortedWordCountsToFile
                (CountWords.entriesOf stdSort env (entryPath Input_Directory e) e.content))) := by
  intro tree
  induction tree with
  | nil => intro s; simp [CountWords.processDirectoryAndCalculateThroughput, matchedEntries]
  | cons e tree ih =>
    intro s
    unfold CountWords.processDirectoryAndCalculateThroughput at ih ⊢
    rw [List.foldl_cons, matchedEntries_cons e tree Input_Directory]
    by_cases hm : isTextFile Input_Directory e = true
    · rw [if_pos hm, if_pos hm]
      dsimp only
      rw [ih, relative_entryPath env hlinks]
      simp [CountWords.processEntry, CountWords.entriesOf, hout]
    · rw [if_neg hm, if_neg hm]
      exact ih s

/-- The state of `sort_words.cpp` after the walk, for any environment. -/
theorem sortWords_walk (stdSort : SortRoutine) (env : Env)
    (inputDirectory outputDirectory : Path) :
    ∀ (tree : List DirEntry) (s : WordState),
      (SortWords.processAllFilesInDirectory stdSort env inputDirectory outputDirectory
          tree s).throughputValues
        = s.throughputValues ++ (matchedEntries tree).map (fun e =>
            floatDiv
              ((SortWords.entriesOf stdSort env (entryPath inputDirectory e) e.content).length
                : ℚ)
              (env.elapsed (entryPath inputDirectory e))) ∧
      (SortWords.processAllFilesInDirectory stdSort env inputDirectory outputDirectory
          tree s).fileSizes
        = s.fileSizes ++ (matchedEntries tree).map (fun e => sizeMiB e.content) := by
  intro tree
  induction tree with
  | nil => intro s; simp [SortWords.processAllFilesInDirectory, matchedEntries]
  | cons e tree ih =>
    intro s
    unfold SortWords.processAllFilesInDirectory at ih ⊢
    rw [List.foldl_cons, matchedEntries_cons e tree inputDirectory]
    by_cases hm : isTextFile inputDirectory e = true
    · rw [if_pos hm, if_pos hm]
      obtain ⟨h1, h2⟩ := ih (SortWords.processSingleFile stdSort env
        (entryPath inputDirectory e) e.content
        (outputDirectory ++ relative env (entryPath inputDirectory e) inputDirectory) s)
      dsimp only at h1 h2 ⊢
      rw [h1, h2]
      simp [SortWords.processSingleFile, SortWords.entriesOf]
    · rw [if_neg hm, if_neg hm]
      exact ih s

/-- The files `sort_words.cpp` creates when there is no symbolic link and every output stream
opens. -/
theorem sortWords_walk_files (stdSort : SortRoutine) (env : Env)
    (hlinks : ∀ p, env.weaklyCanonical p = p) (hout : ∀ p, env.outputOpens p = true)
    (inputDirectory outputDirectory : Path) :
    ∀ (tree : List DirEntry) (s : WordState),
      (SortWords.processAllFilesInDirectory stdSort env inputDirectory outputDirectory
          tree s).files
        = s.files ++ (matchedEntries tree).map (fun e =>
            (outputDirectory ++ (e.directory ++ [e.name]),
              SortWords.writeSortedWordCountsToFile
                (SortWords.entriesOf stdSort env (entryPath inputDirectory e) e.content))) := by
  intro tree
  induction tree with
  | nil => intro s; simp [SortWords.processAllFilesInDirectory, matchedEntries]
  | cons e tree ih =>
    intro s
    unfold SortWords.processAllFilesInDirectory at ih ⊢
    rw [List.foldl_cons, matchedEntries_cons e tree inputDirectory]
    by_cases hm : isTextFile inputDirectory e = true
    · rw [if_pos hm, if_pos hm]
      dsimp only
      rw [ih, relative_entryPath env hlinks]
      simp [SortWords.processSingleFile, SortWords.entriesOf, hout]
    · rw [if_neg hm, if_neg hm]
      exact ih s

theorem map_relative_output (outputDirectory : Path) (f : DirEntry → List Char)
    (entries : List DirEntry) :
    ((entries.map (fun e => (outputDirectory ++ (e.directory ++ [e.name]), f e))).map
        (fun file => lexicallyRelative file.1 outputDirectory))
      = entries.map (fun e => e.directory ++ [e.name]) := by
  rw [List.map_map]
  apply List.map_congr_left
  intro e _
  exact lexicallyRelative_append _ _

theorem map_relative_input (inputDirectory : Path) (entries : List DirEntry) :
    entries.map (fun e => lexicallyRelative (entryPath inputDirectory e) inputDirectory)
      = entries.map (fun e => e.directory ++ [e.name]) := by
  apply List.map_congr_left
  intro e _
  exact lexicallyRelative_entryPath _ _

/-- C7, as the code has it: when the input tree holds no symbolic link and every output stream
opens, each of the three tools creates exactly one file for every regular file of the input
tree whose extension is `.txt`, at the output directory followed by the path of the input file
relative to the input directory, and creates no other file; the file is created whatever the
transform yields, an empty content included. The paths of the files created, relative to the
output directory, are the paths of the matched files relative to the input directory. -/
theorem output_tree_mirrors_input (stdSort : SortRoutine) (env : Env)
    (inputDirectory outputDirectory : Path) (tree : List DirEntry)
    (hlinks : ∀ p, env.weaklyCanonical p = p) (hout : ∀ p, env.outputOpens p = true) :
    ((CleanDataset.processAllFilesInDirectory env inputDirectory outputDirectory tree
          CleanDataset.State.initial).files
        = (matchedEntries tree).map (fun e =>
            (outputDirectory ++ (e.directory ++ [e.name]),
              if env.inputOpens (entryPath inputDirectory e) = true
              then CleanDataset.cleanseContent e.content else [])) ∧
      (CleanDataset.processAllFilesInDirectory env inputDirectory outputDirectory tree
          CleanDataset.State.initial).files.map
            (fun file => lexicallyRelative file.1 outputDirectory)
        = (matchedEntries tree).map
            (fun e => lexicallyRelative (entryPath inputDirectory e) inputDirectory)) ∧
    ((CountWords.processDirectoryAndCalculateThroughput stdSort env inputDirectory
          outputDirectory tree WordState.initial).files
        = (matchedEntries tree).map (fun e =>
            (outputDirectory ++ (e.directory ++ [e.name]),
              CountWords.writeSortedWordCountsToFile
                (CountWords.entriesOf stdSort env (entryPath inputDirectory e) e.content))) ∧
      (CountWords.processDirectoryAndCalculateThroughput stdSort env inputDirectory
          outputDirectory tree WordState.initial).files.map
            (fun file => lexicallyRelative file.1 outputDirectory)
        = (matchedEntries tree).map
            (fun e => lexicallyRelative (entryPath inputDirectory e) inputDirectory)) ∧
    ((SortWords.processAllFilesInDirectory stdSort env inputDirectory outputDirectory tree
          WordState.initial).files
        = (matchedEntries tree).map (fun e =>
            (outputDirectory ++ (e.directory ++ [e.name]),
              SortWords.writeSortedWordCountsToFile
                (SortWords.entriesOf stdSort env (entryPath inputDirectory e) e.content))) ∧
      (SortWords.processAllFilesInDirectory stdSort env inputDirectory outputDirectory tree
          WordState.initial).files.map
            (fun file => lexicallyRelative file.1 outputDirectory)
        = (matchedEntries tree).map
            (fun e => lexicallyRelative (entryPath inputDirectory e) inputDirectory)) := by
  have h1 := cleanDataset_walk_files env hlinks hout inputDirectory outputDirectory tree
    CleanDataset.State.initial
  have h2 := countWords_walk_files stdSort env hlinks hout inputDirectory outputDirectory tree
    WordState.initial
  have h3 := sortWords_walk_files stdSort env hlinks hout inputDirectory outputDirectory tree
    WordState.initial
  simp only [CleanDataset.State.initial, WordState.initial, List.nil_append] at h1 h2 h3
  simp only [CleanDataset.State.initial, WordState.initial]
  refine ⟨⟨h1, ?_⟩, ⟨h2, ?_⟩, ⟨h3, ?_⟩⟩
  · rw [h1, map_relative_output, map_relative_input]
  · rw [h2, map_relative_output, map_relative_input]
  · rw [h3, map_relative_output, map_relative_input]

/-- C7 at the sample tree, walked from `in` to `out` with the GNU sort where every stream opens
and no path holds a link: the three tools create `out/a/b.txt` and `out/a/empty.txt`, the
second one empty under the word-count tools, and nothing for the directory `a` and for
`notes.md`. -/
theorem output_tree_mirrors_input_witness :
    (∀ p, (allOpen (fun _ => 1)).weaklyCanonical p = p) ∧
    (∀ p, (allOpen (fun _ => 1)).outputOpens p = true) ∧
    (CleanDataset.processAllFilesInDirectory (allOpen (fun _ => 1)) ["in".toList]
        ["out".toList] sampleTree CleanDataset.State.initial).files.map
          (fun file => lexicallyRelative file.1 ["out".toList])
      = (matchedEntries sampleTree).map
          (fun e => lexicallyRelative (entryPath ["in".toList] e) ["in".toList]) ∧
    (CountWords.processDirectoryAndCalculateThroughput gnuSort (allOpen (fun _ => 1))
        ["in".toList] ["out".toList] sampleTree WordState.initial).files.map
          (fun file => lexicallyRelative file.1 ["out".toList])
      = (matchedEntries sampleTree).map
          (fun e => lexicallyRelative (entryPath ["in".toList] e) ["in".toList]) ∧
    (SortWords.processAllFilesInDirectory gnuSort (allOpen (fun _ => 1))
        ["in".toList] ["out".toList] sampleTree WordState.initial).files.map
          (fun file => lexicallyRelative file.1 ["out".toList])
      = (matchedEntries sampleTree).map
          (fun e => lexicallyRelative (entryPath ["in".toList] e) ["in".toList]) ∧
    (matchedEntries sampleTree).map
        (fun e => lexicallyRelative (entryPath ["in".toList] e) ["in".toList])
      = [["a".toList, "b.txt".toList], ["a".toList, "empty.txt".toList]] ∧
    (CountWords.processDirectoryAndCalculateThroughput gnuSort (allOpen (fun _ => 1))
        ["in".toList] ["out".toList] sampleTree WordState.initial).files
      = [(["out".toList, "a".toList, "b.txt".toList], "cat 3\n".toList),
         (["out".toList, "a".toList, "empty.txt".toList], [])] :=
  ⟨fun _ => rfl, fun _ => rfl,
    (output_tree_mirrors_input gnuSort (allOpen (fun _ => 1)) ["in".toList] ["out".toList]
      sampleTree (fun _ => rfl) (fun _ => rfl)).1.2,
    (output_tree_mirrors_input gnuSort (allOpen (fun _ => 1)) ["in".toList] ["out".toList]
      sampleTree (fun _ => rfl) (fun _ => rfl)).2.1.2,
    (output_tree_mirrors_input gnuSort (allOpen (fun _ => 1)) ["in".toList] ["out".toList]
      sampleTree (fun _ => rfl) (fun _ => rfl)).2.2.2,
    by decide, by decide⟩

/-- C7 fails as stated, in two ways. The entry `in/away.txt` is a symbolic link to the regular
file `other/far.txt`: it is matched, `fs::relative` resolves the link to `../other/far.txt`, and
each tool writes to `out/../other/far.txt`, not to `out/away.txt`. And where no output stream
opens, the two matched files of the sample tree produce no file at all. -/
theorem mirroring_counterexample :
    ((matchedEntries linkedTree).map
        (fun e => ["out".toList] ++ lexicallyRelative (entryPath ["in".toList] e) ["in".toList])
      = [["out".toList, "away.txt".toList]] ∧
    (CleanDataset.processAllFilesInDirectory linkedEnv ["in".toList] ["out".toList] linkedTree
        CleanDataset.State.initial).files.map (fun file => file.1)
      = [["out".toList, "..".toList, "other".toList, "far.txt".toList]] ∧
    (CountWords.processDirectoryAndCalculateThroughput gnuSort linkedEnv ["in".toList]
        ["out".toList] linkedTree WordState.initial).files.map (fun file => file.1)
      = [["out".toList, "..".toList, "other".toList, "far.txt".toList]] ∧
    (SortWords.processAllFilesInDirectory gnuSort linkedEnv ["in".toList]
        ["out".toList] linkedTree WordState.initial).files.map (fun file => file.1)
      = [["out".toList, "..".toList, "other".toList, "far.txt".toList]] ∧
    (CountWords.processDirectoryAndCalculateThroughput gnuSort linkedEnv ["in".toList]
        ["out".toList] linkedTree WordState.initial).files.map
          (fun file => lexicallyRelative file.1 ["out".toList])
      ≠ (matchedEntries linkedTree).map
          (fun e => lexicallyRelative (entryPath ["in".toList] e) ["in".toList])) ∧
    ((matchedEntries sampleTree).length = 2 ∧
    (CleanDataset.processAllFilesInDirectory unwritableEnv ["in".toList] ["out".toList]
        sampleTree CleanDataset.State.initial).files = [] ∧
    (CountWords.processDirectoryAndCalculateThroughput gnuSort unwritableEnv ["in".toList]
        ["out".toList] sampleTree WordState.initial).files = [] ∧
    (SortWords.processAllFilesInDirectory gnuSort unwritableEnv ["in".toList]
        ["out".toList] sampleTree WordState.initial).files = []) := by
  decide

/-- The sample tree under `count_words.cpp`: the two `.txt` files are mirrored, the empty one as
an empty file; the directory and `notes.md` give nothing. -/
theorem mirroring_example :
    (CountWords.processDirectoryAndCalculateThroughput gnuSort (allOpen (fun _ => 1))
        ["in".toList] ["out".toList] sampleTree WordState.initial).files
      = [(["out".toList, "a".toList, "b.txt".toList], "cat 3\n".toList),
         (["out".toList, "a".toList, "empty.txt".toList], [])] := by
  decide

/-! ## Statistics and throughput -/

/-- C8, as the code has it: `clean_dataset.cpp` records every matched file, whether or not its
streams open. For every environment, processing one file adds its size to the running total and
appends its size and its measured time to the lists, and only the lines written depend on the
streams: the cleansed content when both open, an empty output file when only the output opens,
no file otherwise. Over a tree, the lists hold one size and one time for each matched file, in
the order of the walk, and the total is the sum of the sizes. -/
theorem statistics_record_every_matched_file (env : Env)
    (inputDirectory outputDirectory : Path) (tree : List DirEntry) :
    (∀ (inputFile : Path) (content : List Char) (outputFile : Path) (s : CleanDataset.State),
      (CleanDataset.processSingleFile env inputFile content outputFile s).total_Size
          = s.total_Size + sizeMiB content ∧
      (CleanDataset.processSingleFile env inputFile content outputFile s).sizes_
          = s.sizes_ ++ [sizeMiB content] ∧
      (CleanDataset.processSingleFile env inputFile content outputFile s).times_
          = s.times_ ++ [env.elapsed inputFile] ∧
      (CleanDataset.processSingleFile env inputFile content outputFile s).files
          = (if CleanDataset.openFiles env inputFile outputFile
              then s.files ++ [(outputFile, CleanDataset.cleanseContent content)]
              else if env.outputOpens outputFile then s.files ++ [(outputFile, [])]
              else s.files)) ∧
    (CleanDataset.processAllFilesInDirectory env inputDirectory outputDirectory tree
        CleanDataset.State.initial).sizes_
      = (matchedEntries tree).map (fun e => sizeMiB e.content) ∧
    (CleanDataset.processAllFilesInDirectory env inputDirectory outputDirectory tree
        CleanDataset.State.initial).times_
      = (matchedEntries tree).map (fun e => env.elapsed (entryPath inputDirectory e)) ∧
    (CleanDataset.processAllFilesInDirectory env inputDirectory outputDirectory tree
        CleanDataset.State.initial).total_Size
      = ((matchedEntries tree).map (fun e => sizeMiB e.content)).sum := by
  have h := cleanDataset_walk_statistics env inputDirectory outputDirectory tree
    CleanDataset.State.initial
  simp only [CleanDataset.State.initial, List.nil_append, zero_add] at h
  simp only [CleanDataset.State.initial]
  refine ⟨fun inputFile content outputFile s => ⟨rfl, rfl, rfl, ?_⟩, h.1, h.2.1, h.2.2⟩
  unfold CleanDataset.processSingleFile CleanDataset.processFile
  dsimp only
  cases CleanDataset.openFiles env inputFile outputFile <;> simp

/-- C8 fails as stated: the input stream of `in/a.txt` does not open, `openFiles` reports the
failure and no line is written, and still the size of the file and its measured time are
appended to the empty lists and its size is added to the total. -/
theorem failed_open_counterexample :
    CleanDataset.openFiles unreadableEnv ["in".toList, "a.txt".toList]
        ["out".toList, "a.txt".toList] = false ∧
    (CleanDataset.processSingleFile unreadableEnv ["in".toList, "a.txt".toList]
        "hello\n".toList ["out".toList, "a.txt".toList] CleanDataset.State.initial).files
      = [(["out".toList, "a.txt".toList], [])] ∧
    (CleanDataset.processSingleFile unreadableEnv ["in".toList, "a.txt".toList]
        "hello\n".toList ["out".toList, "a.txt".toList] CleanDataset.State.initial).sizes_
      = [sizeMiB "hello\n".toList] ∧
    (CleanDataset.processSingleFile unreadableEnv ["in".toList, "a.txt".toList]
        "hello\n".toList ["out".toList, "a.txt".toList] CleanDataset.State.initial).times_
      = [1] ∧
    (CleanDataset.processSingleFile unreadableEnv ["in".toList, "a.txt".toList]
        "hello\n".toList ["out".toList, "a.txt".toList] CleanDataset.State.initial).sizes_
      ≠ CleanDataset.State.initial.sizes_ ∧
    (CleanDataset.processSingleFile unreadableEnv ["in".toList, "a.txt".toList]
        "hello\n".toList ["out".toList, "a.txt".toList] CleanDataset.State.initial).times_
      ≠ CleanDataset.State.initial.times_ := by
  refine ⟨by decide, by decide, ?_, ?_, ?_, ?_⟩ <;>
    simp [CleanDataset.processSingleFile, CleanDataset.State.initial, unreadableEnv]

theorem throughputSeries_samples (samples : List (ℚ × ℚ)) :
    CleanDataset.throughputSeries (samples.map Prod.fst) (samples.map Prod.snd)
      = samples.map (fun s => floatDiv s.1 s.2) := by
  unfold CleanDataset.throughputSeries
  apply List.ext_getElem
  · simp
  · intro i h1 h2
    have hi : i < samples.length := by simpa using h2
    simp [List.getD_eq_getElem?_getD, hi]

/-- C9, as the code has it: the throughput series holds one point for every recorded sample,
whatever its duration, and each point is the outcome of the division for its sample. The
plotting loop of `clean_dataset.cpp` yields the quotient of size by time for every sample;
`count_words.cpp` and `sort_words.cpp` push the quotient of the number of entries by the time
for every matched file. The division by a zero duration is carried out: the point of a sample
of duration 0 is NaN for a zero dividend and infinity otherwise, never a skipped point. -/
theorem throughput_point_for_every_sample (stdSort : SortRoutine) (env : Env)
    (inputDirectory outputDirectory : Path) (tree : List DirEntry) :
    (∀ samples : List (ℚ × ℚ),
      CleanDataset.throughputSeries (samples.map Prod.fst) (samples.map Prod.snd)
        = samples.map (fun s => floatDiv s.1 s.2)) ∧
    (∀ (before after : List (ℚ × ℚ)) (x : ℚ),
      (CleanDataset.throughputSeries ((before ++ (x, 0) :: after).map Prod.fst)
          ((before ++ (x, 0) :: after).map Prod.snd))[before.length]?
        = some (if x = 0 then FloatQuotient.nan else FloatQuotient.infinity)) ∧
    (CleanDataset.main env inputDirectory outputDirectory tree).2.2
      = (matchedEntries tree).map (fun e =>
          floatDiv (sizeMiB e.content) (env.elapsed (entryPath inputDirectory e))) ∧
    (CountWords.processDirectoryAndCalculateThroughput stdSort env inputDirectory
        outputDirectory tree WordState.initial).throughputValues
      = (matchedEntries tree).map (fun e =>
          floatDiv
            ((CountWords.entriesOf stdSort env (entryPath inputDirectory e) e.content).length : ℚ)
            (env.elapsed (entryPath inputDirectory e))) ∧
    (SortWords.processAllFilesInDirectory stdSort env inputDirectory outputDirectory tree
        WordState.initial).throughputValues
      = (matchedEntries tree).map (fun e =>
          floatDiv
            ((SortWords.entriesOf stdSort env (entryPath inputDirectory e) e.content).length : ℚ)
            (env.elapsed (entryPath inputDirectory e))) ∧
    (∀ x : ℚ, floatDiv x 0
      = if x = 0 then FloatQuotient.nan else FloatQuotient.infinity) := by
  have h1 := cleanDataset_walk_statistics env inputDirectory outputDirectory tree
    { total_Size := 0, sizes_ := [], times_ := [], files := [] }
  have h2 := countWords_walk stdSort env inputDirectory outputDirectory tree WordState.initial
  have h3 := sortWords_walk stdSort env inputDirectory outputDirectory tree WordState.initial
  have hzero : ∀ x : ℚ, floatDiv x 0
      = if x = 0 then FloatQuotient.nan else FloatQuotient.infinity := by
    intro x; simp [floatDiv]
  refine ⟨throughputSeries_samples, ?_, ?_, ?_, ?_, hzero⟩
  · intro before after x
    rw [throughputSeries_samples, List.getElem?_map, List.getElem?_append_right (le_refl _)]
    simp [hzero]
  · unfold CleanDataset.main
    dsimp only
    rw [h1.1, h1.2.1]
    simp only [List.nil_append]
    have := throughputSeries_samples ((matchedEntries tree).map
      (fun e => (sizeMiB e.content, env.elapsed (entryPath inputDirectory e))))
    simpa [List.map_map, Function.comp_def] using this
  · rw [h2.1]; simp [WordState.initial]
  · rw [h3.1]; simp [WordState.initial]

/-- C9 fails as stated: a sample of duration 0 gives a point of the series. In
`clean_dataset.cpp` the sizes `[1]` with the times `[0]` give the one point infinity, where the
claim has no point; with a clock that measures no time, `count_words.cpp` pushes the value
infinity for the file `a/b.txt` of the sample tree and NaN for the empty file. -/
theorem zero_duration_counterexample :
    CleanDataset.throughputSeries [1] [0] = [FloatQuotient.infinity] ∧
    (CleanDataset.throughputSeries [1] [0]).length ≠ (([0] : List ℚ).filter (fun t => t ≠ 0)).length ∧
    (CountWords.processDirectoryAndCalculateThroughput gnuSort instantEnv ["in".toList]
        ["out".toList] sampleTree WordState.initial).throughputValues
      = [FloatQuotient.infinity, FloatQuotient.nan] ∧
    (SortWords.processAllFilesInDirectory gnuSort instantEnv ["in".toList]
        ["out".toList] sampleTree WordState.initial).throughputValues
      = [FloatQuotient.infinity, FloatQuotient.nan] := by
  refine ⟨?_, ?_, ?_, ?_⟩
  · simp [CleanDataset.throughputSeries, floatDiv, List.range, List.range.loop]
  · simp [CleanDataset.throughputSeries]
  · decide
  · decide

end Pa1
